import Mathlib

/-! Verification development for the two judge solutions of the repository.

* `src/codeforces/2181A.cpp` (namespace `Telegraph.A2181`): per-row binary search of the
  largest feasible `mid`, with the feasibility predicate `validate`.
* `src/codeforces/a-sum_trial1.cpp` (namespace `Telegraph.ASum`): the three-integer
  classifier.

Modelling conventions.

* Standard input is a list of characters, one per byte read. `cin >> int` and
  `cin >> string` are modelled by `readInt` and `readWord` (skip white space, then take
  the longest admissible run of characters). A failed extraction is `none`; in both
  programs nothing is read successfully after a failed extraction, so the sticky fail bit
  needs no separate state.
* A value of type `int` is an integer of the 32-bit range and a value of type `long long`
  an integer of the 64-bit range. Every `int` addition, subtraction and multiplication of
  the programs is followed by `wrap32`, every `long long` one by `wrap64`: an overflow
  wraps around in two's complement, which is what the usual compilers produce for this
  code (the language itself leaves signed overflow undefined). An extracted `int` is
  checked against the 32-bit range, as the stream does. The loop counters `i` and the increments of the count
  vectors are kept exact: a counter stays below its bound `n` or `x`, and a count is at
  most the number of letters read, so neither can overflow on an input of fewer than
  `2^31` characters.
* The same comparisons in exact, unbounded integers are `validateExact` and
  `verdictExact`; they are the reference of the overflow analysis.
* Standard output is the string of all characters written; `endl` writes a newline.
* `vector<int>` is a list of integers, `v[i]` is `v.getD i 0`; an indexed write outside
  the vector makes the run `undefined`.
* A `while` loop is modelled with an iteration budget; a run whose search loop does not
  return within the budget ends as `unfinished`. The budget of 64 iterations is complete:
  the search loop returns within it or never returns (`search_eq_none_iff`).
-/

namespace Telegraph

/-! ## Standard input -/

/-- White space of the classic locale: space, tab, newline, vertical tab, form feed,
carriage return. -/
def isSpace (c : Char) : Bool :=
  c = ' ' || c = '\t' || c = '\n' || c = '\x0b' || c = '\x0c' || c = '\r'

/-- Skip leading white space, as every formatted extraction does first. -/
def skipWs (cs : List Char) : List Char :=
  cs.dropWhile isSpace

/-- Value of a run of decimal digits. -/
def digitsValue (ds : List Char) : Nat :=
  ds.foldl (fun acc c => 10 * acc + (c.toNat - 48)) 0

/-- Smallest value of a 32-bit `int`. -/
def INT_MIN : Int := -2147483648

/-- Largest value of a 32-bit `int`. -/
def INT_MAX : Int := 2147483647

/-- Two's complement wrap-around of an integer to 32 bits. -/
def wrap32 (x : Int) : Int :=
  (x + 2147483648) % 4294967296 - 2147483648

/-- Two's complement wrap-around of an integer to 64 bits. -/
def wrap64 (x : Int) : Int :=
  (x + 9223372036854775808) % 18446744073709551616 - 9223372036854775808

/-- Characters left after an optional sign. -/
def afterSign (cs : List Char) : List Char :=
  match cs with
  | '-' :: t => t
  | '+' :: t => t
  | _ => cs

/-- Whether the field starts with a minus sign. -/
def hasMinus (cs : List Char) : Bool :=
  match cs with
  | '-' :: _ => true
  | _ => false

/-- Model of `cin >> x` for `int x`: white space is skipped, an optional sign and the
longest run of decimal digits are consumed; the extraction fails when there is no digit
or when the value does not fit a 32-bit `int`. On success the value and the remaining
characters are returned. -/
def readInt (cs : List Char) : Option (Int × List Char) :=
  let cs1 := skipWs cs
  let body := afterSign cs1
  let ds := body.takeWhile Char.isDigit
  if ds.isEmpty then none
  else
    let v : Int := if hasMinus cs1 then -(digitsValue ds : Int) else (digitsValue ds : Int)
    if INT_MIN ≤ v ∧ v ≤ INT_MAX then some (v, body.dropWhile Char.isDigit) else none

/-- Model of `cin >> s` for a `string s` that is empty before the call: white space is
skipped and the longest run of non-space characters is taken. When the input is
exhausted the extraction fails and `s` stays empty, which is the first component `[]`. -/
def readWord (cs : List Char) : List Char × List Char :=
  let cs1 := skipWs cs
  (cs1.takeWhile (fun c => !isSpace c), cs1.dropWhile (fun c => !isSpace c))

/-- How a run of a program ends. -/
inductive Outcome where
  /-- Return from the entry function with an exit status, after writing `out`. -/
  | exited (status : Nat) (out : String)
  /-- An exception left the entry function (a vector of negative size was requested). -/
  | aborted
  /-- An indexed access outside a vector. -/
  | undefined
  /-- The search loop of some row did not return within the iteration budget. -/
  | unfinished
  deriving DecidableEq, Repr

/-! ## `src/codeforces/a-sum_trial1.cpp` -/

namespace ASum

/-- Lines 19 to 25: `max_val`, `sum_val` and the word written for one triple. The two
additions of `a + b + c` and the product `2 * max_val` are `int` operations and wrap to
32 bits; `max` does no arithmetic. -/
def verdict (a b c : Int) : String :=
  let max_val := max a (max b c)
  let sum_val := wrap32 (wrap32 (a + b) + c)
  if wrap32 (2 * max_val) = sum_val then "YES" else "NO"

/-- Line 15: `cin >> a >> b >> c`. -/
def readTriple (cs : List Char) : Option ((Int × Int × Int) × List Char) :=
  match readInt cs with
  | none => none
  | some (a, r1) =>
    match readInt r1 with
    | none => none
    | some (b, r2) =>
      match readInt r2 with
      | none => none
      | some (c, r3) => some ((a, b, c), r3)

/-- Lines 13 to 28: the loop over the tests, by the number of iterations left; `out` is
what has been written so far. -/
def testLoop : Nat → List Char → String → Outcome
  | 0, _, out => Outcome.exited 0 out
  | k + 1, cs, out =>
    match readTriple cs with
    | none => Outcome.exited 1 (out ++ "Invalid input" ++ "\n")
    | some ((a, b, c), rest) => testLoop k rest (out ++ verdict a b c ++ "\n")

/-- The entry function of `a-sum_trial1.cpp`. -/
def main (inp : List Char) : Outcome :=
  match readInt inp with
  | none => Outcome.exited 1 ("Invalid input" ++ "\n")
  | some (x, rest) =>
    if x < 1 ∨ x > 9261 then Outcome.exited 1 ("Invalid input" ++ "\n")
    else testLoop x.toNat rest ""

/-- One of the three values is the sum of the other two (the wording of the
specification). -/
def oneIsSumOfOthers (a b c : Int) : Prop :=
  a = b + c ∨ b = a + c ∨ c = a + b

/-- The largest of the three values equals the sum of the other two. -/
def largestIsSumOfOthers (a b c : Int) : Prop :=
  (b ≤ a ∧ c ≤ a ∧ a = b + c) ∨ (a ≤ b ∧ c ≤ b ∧ b = a + c) ∨ (a ≤ c ∧ b ≤ c ∧ c = a + b)

end ASum

/-! ## `src/codeforces/2181A.cpp` -/

namespace A2181

/-- Lines 9 to 17: the loop of `validate` from index `i`, with `k` iterations left. The
difference `m - mid` is an `int` subtraction and wraps to 32 bits; `rest` and the product
are `long long` and wrap to 64 bits. -/
def validateLoop (mid m : Int) (street g_count : List Int) : Nat → Nat → Bool
  | 0, _ => true
  | k + 1, i =>
    if street.getD i 0 = 0 then validateLoop mid m street g_count k (i + 1)
    else
      let rest := wrap64 (g_count.getD i 0 - street.getD i 0)
      if rest = 0 then false
      else if wrap64 (wrap32 (m - mid) * rest) < street.getD i 0 then false
      else validateLoop mid m street g_count k (i + 1)

/-- Lines 8 to 18: `validate(mid, m, street, g_count)`. -/
def validate (mid m : Int) (street g_count : List Int) : Bool :=
  validateLoop mid m street g_count 26 0

/-- Lines 43 to 51: the loop `while (low <= high)`, with an iteration budget. The sums
and differences of `low`, `high` and `mid` are `int` operations and wrap to 32 bits. The
result is the final `ans_k`, or `none` when the budget ends while `low <= high` still
holds. -/
def searchLoop (m : Int) (street g_count : List Int) : Nat → Int → Int → Int → Option Int
  | 0, low, high, ans_k => if low ≤ high then none else some ans_k
  | fuel + 1, low, high, ans_k =>
    if low ≤ high then
      let mid := wrap32 (low + Int.tdiv (wrap32 (high - low)) 2)
      if validate mid m street g_count then
        searchLoop m street g_count fuel (wrap32 (mid + 1)) high mid
      else searchLoop m street g_count fuel low (wrap32 (mid - 1)) ans_k
    else some ans_k

/-- Lines 40 to 51: the answer `ans_k` of one row, with `high = m - 1` computed in
`int`. The budget of 64 iterations is complete, see `search_eq_none_iff`: `none` means
that the loop never returns. -/
def search (m : Int) (street g_count : List Int) : Option Int :=
  searchLoop m street g_count 64 0 (wrap32 (m - 1)) (-1)

/-- The vector `vector<int>(26, 0)`. -/
def zeros26 : List Int := List.replicate 26 0

/-- The statement `v[idx]++`; `none` when `idx` is outside the vector. -/
def bump (v : List Int) (idx : Int) : Option (List Int) :=
  if 0 ≤ idx ∧ idx < (v.length : Int) then some (v.set idx.toNat (v.getD idx.toNat 0 + 1))
  else none

/-- Line 34: `int idx = c - 'A'`. -/
def letterIndex (c : Char) : Int :=
  (c.toNat : Int) - (('A').toNat : Int)

/-- Lines 33 to 37: the loop over the characters of one row, updating `g_count` and the
row's own counts. -/
def countChars : List Char → List Int → List Int → Option (List Int × List Int)
  | [], g_count, row => some (g_count, row)
  | c :: cs, g_count, row =>
    match bump g_count (letterIndex c) with
    | none => none
    | some g2 =>
      match bump row (letterIndex c) with
      | none => none
      | some row2 => countChars cs g2 row2

/-- Lines 31 to 38: the reading loop, by the number of rows left. The result is the final
`g_count` and the rows of `c_counts` filled by these iterations. -/
def readRows : Nat → List Char → List Int → Option (List Int × List (List Int))
  | 0, _, g_count => some (g_count, [])
  | k + 1, cs, g_count =>
    match countChars (readWord cs).1 g_count zeros26 with
    | none => none
    | some (g2, row) =>
      match readRows k (readWord cs).2 g2 with
      | none => none
      | some (g3, rows) => some (g3, row :: rows)

/-- Lines 39 to 54: the printing loop from row `i`, over the rows of `c_counts` not yet
handled; the result is the text written by these iterations. -/
def printLoop (n m : Int) (g_count : List Int) : Int → List (List Int) → Option String
  | _, [] => some ""
  | i, street :: rows =>
    match search m street g_count with
    | none => none
    | some ans_k =>
      match printLoop n m g_count (i + 1) rows with
      | none => none
      | some s => some (toString ans_k ++ (if i = n - 1 then "" else " ") ++ s)

/-- The entry function of `2181A.cpp`. -/
def main (inp : List Char) : Outcome :=
  match readInt inp with
  | none => Outcome.exited 0 ""
  | some (n, r1) =>
    match readInt r1 with
    | none => Outcome.exited 0 ""
    | some (m, r2) =>
      if n < 0 then Outcome.aborted
      else
        match readRows n.toNat r2 zeros26 with
        | none => Outcome.undefined
        | some (g_count, c_counts) =>
          match printLoop n m g_count 0 c_counts with
          | none => Outcome.unfinished
          | some s => Outcome.exited 0 (s ++ "\n")

/-- No candidate of the range `[0, m - 1]` is feasible for the row. -/
def NoFeasible (m : Int) (street g_count : List Int) : Prop :=
  ∀ mid : Int, 0 ≤ mid → mid ≤ m - 1 → validate mid m street g_count = false

/-- The value `a` is the largest feasible candidate of the range `[0, m - 1]`. -/
def IsMaxFeasible (m : Int) (street g_count : List Int) (a : Int) : Prop :=
  0 ≤ a ∧ a ≤ m - 1 ∧ validate a m street g_count = true ∧
    ∀ mid : Int, 0 ≤ mid → mid ≤ m - 1 → validate mid m street g_count = true → mid ≤ a

/-- The character is one of the uppercase letters `A` to `Z`. -/
def isUpperLetter (c : Char) : Prop :=
  ('A').toNat ≤ c.toNat ∧ c.toNat ≤ ('Z').toNat

/-- The row strings `lst[0..n-1]` that the reading loop extracts. -/
def rowWords : Nat → List Char → List (List Char)
  | 0, _ => []
  | k + 1, cs => (readWord cs).1 :: rowWords k (readWord cs).2

/-- Pieces of text separated by single spaces. -/
def joinSp : List String → String
  | [] => ""
  | [s] => s
  | s :: t :: ts => s ++ " " ++ joinSp (t :: ts)

/-- The uppercase letter of category `j`: `A` for 0, `B` for 1, and so on. -/
def letter (j : Nat) : Char :=
  Char.ofNat (('A').toNat + j)

/-- The loop of `validate` in exact, unbounded integers: the reference with which the
fixed-width computation is compared. -/
def validateLoopExact (mid m : Int) (street g_count : List Int) : Nat → Nat → Bool
  | 0, _ => true
  | k + 1, i =>
    if street.getD i 0 = 0 then validateLoopExact mid m street g_count k (i + 1)
    else
      let rest := g_count.getD i 0 - street.getD i 0
      if rest = 0 then false
      else if (m - mid) * rest < street.getD i 0 then false
      else validateLoopExact mid m street g_count k (i + 1)

/-- The comparison of `validate` in exact, unbounded integers. -/
def validateExact (mid m : Int) (street g_count : List Int) : Bool :=
  validateLoopExact mid m street g_count 26 0

/-- Ceiling of the quotient `a / b`, for a positive divisor `b`. -/
def ceilDiv (a b : Int) : Int :=
  (a + b - 1) / b

/-- The value `C` of the direct formula, over the categories below `k`: the maximum of
`ceil(row[i] / (global[i] - row[i]))` over the categories `i` with `row[i] > 0`, and 0
when there is no such category. -/
def maxCeil (street g_count : List Int) : Nat → Int
  | 0 => 0
  | k + 1 =>
    if 0 < street.getD k 0 then
      max (maxCeil street g_count k)
        (ceilDiv (street.getD k 0) (g_count.getD k 0 - street.getD k 0))
    else maxCeil street g_count k

/-- Some category present in the row has a global count equal to the row's count. -/
def hasExhausted (street g_count : List Int) : Bool :=
  (List.range 26).any
    (fun i => decide (0 < street.getD i 0 ∧ g_count.getD i 0 = street.getD i 0))

/-- No category is present in the row. -/
def noCategory (street : List Int) : Bool :=
  (List.range 26).all (fun i => decide (¬ 0 < street.getD i 0))

/-- The direct formula for the answer of a row, in the words of the specification: `-1`
if some present category has `global[i] = row[i]` or if `m - C < 0`; `m - 1` when no
category is present (then `C = 0` and `m >= 0`); `m - C` in every other case. -/
def closedForm (m : Int) (street g_count : List Int) : Int :=
  if hasExhausted street g_count = true ∨ m - maxCeil street g_count 26 < 0 then -1
  else if noCategory street = true then m - 1
  else m - maxCeil street g_count 26

/-- Lines 43 to 51 with an arbitrary feasibility test in place of the call of
`validate`, the same 32-bit arithmetic and the same iteration budget. -/
def searchLoopWith (feasible : Int → Bool) : Nat → Int → Int → Int → Option Int
  | 0, low, high, ans_k => if low ≤ high then none else some ans_k
  | fuel + 1, low, high, ans_k =>
    if low ≤ high then
      let mid := wrap32 (low + Int.tdiv (wrap32 (high - low)) 2)
      if feasible mid then searchLoopWith feasible fuel (wrap32 (mid + 1)) high mid
      else searchLoopWith feasible fuel low (wrap32 (mid - 1)) ans_k
    else some ans_k

/-- The loop started in the given state never returns: no iteration budget is enough. -/
def Diverges (feasible : Int → Bool) (low high ans_k : Int) : Prop :=
  ∀ fuel : Nat, searchLoopWith feasible fuel low high ans_k = none

end A2181

/-! ## Further definitions for `a-sum_trial1.cpp` -/

namespace ASum

/-- The text written for a list of triples, one line each. -/
def verdictLines : List (Int × Int × Int) → String
  | [] => ""
  | (a, b, c) :: ts => verdict a b c ++ "\n" ++ verdictLines ts

/-- Reading `j` triples one after the other. -/
def readTriples : Nat → List Char → Option (List (Int × Int × Int) × List Char)
  | 0, cs => some ([], cs)
  | j + 1, cs =>
    match readTriple cs with
    | none => none
    | some (t, rest) =>
      match readTriples j rest with
      | none => none
      | some (ts, rest2) => some (t :: ts, rest2)

/-- Lines 19 to 25 in exact, unbounded integers: the reference with which the 32-bit
computation is compared. -/
def verdictExact (a b c : Int) : String :=
  let max_val := max a (max b c)
  let sum_val := a + b + c
  if 2 * max_val = sum_val then "YES" else "NO"

end ASum

end Telegraph

/-! # Theorems -/

/-! ## General facts and `a-sum_trial1.cpp` -/

namespace Telegraph

theorem wrap32_eq (x : Int) (h1 : -2147483648 ≤ x) (h2 : x ≤ 2147483647) : wrap32 x = x := by
  unfold wrap32
  omega

theorem wrap64_eq (x : Int) (h1 : -9223372036854775808 ≤ x) (h2 : x ≤ 9223372036854775807) :
    wrap64 x = x := by
  unfold wrap64
  omega

theorem wrap32_range (x : Int) : -2147483648 ≤ wrap32 x ∧ wrap32 x ≤ 2147483647 := by
  unfold wrap32
  omega

theorem wrap32_wrap32_add (x y : Int) : wrap32 (wrap32 x + y) = wrap32 (x + y) := by
  unfold wrap32
  omega

theorem foldl_append_string (l : List String) :
    ∀ acc : String, List.foldl (fun r s => r ++ s) acc l
      = acc ++ List.foldl (fun r s => r ++ s) "" l := by
  induction l with
  | nil =>
    intro acc
    simp only [List.foldl_nil, String.append_empty]
  | cons s l ih =>
    intro acc
    simp only [List.foldl_cons]
    rw [ih (acc ++ s), ih ("" ++ s), String.empty_append, String.append_assoc]

theorem string_join_cons (s : String) (l : List String) :
    String.join (s :: l) = s ++ String.join l := by
  unfold String.join
  rw [List.foldl_cons, foldl_append_string l ("" ++ s), String.empty_append]

namespace ASum

theorem verdict_cases (a b c : Int) : verdict a b c = "YES" ∨ verdict a b c = "NO" := by
  unfold verdict
  by_cases h : wrap32 (2 * max a (max b c)) = wrap32 (wrap32 (a + b) + c) <;> simp [h]

theorem verdict_eq_yes_iff (a b c : Int) :
    verdict a b c = "YES" ↔ wrap32 (2 * max a (max b c)) = wrap32 (wrap32 (a + b) + c) := by
  unfold verdict
  by_cases h : wrap32 (2 * max a (max b c)) = wrap32 (wrap32 (a + b) + c) <;> simp [h]

theorem verdict_eq_no_iff (a b c : Int) :
    verdict a b c = "NO" ↔ ¬ wrap32 (2 * max a (max b c)) = wrap32 (wrap32 (a + b) + c) := by
  unfold verdict
  by_cases h : wrap32 (2 * max a (max b c)) = wrap32 (wrap32 (a + b) + c) <;> simp [h]

theorem twice_max_iff_largest (a b c : Int) :
    2 * max a (max b c) = a + b + c ↔ largestIsSumOfOthers a b c := by
  unfold largestIsSumOfOthers
  rcases le_total b c with hbc | hbc
  · rw [max_eq_right hbc]
    rcases le_total a c with hac | hac
    · rw [max_eq_right hac]; omega
    · rw [max_eq_left hac]; omega
  · rw [max_eq_left hbc]
    rcases le_total a b with hab | hab
    · rw [max_eq_right hab]; omega
    · rw [max_eq_left hab]; omega

theorem testLoop_step (k : Nat) (cs rest : List Char) (out : String) (a b c : Int)
    (h : readTriple cs = some ((a, b, c), rest)) :
    testLoop (k + 1) cs out = testLoop k rest (out ++ verdict a b c ++ "\n") := by
  simp [testLoop, h]

/-- Whatever the loop over the tests does, what was written before stays written: the
final output starts with `out`. -/
theorem testLoop_extends (k : Nat) :
    ∀ (cs : List Char) (out : String),
      ∃ (status : Nat) (more : String), testLoop k cs out = Outcome.exited status (out ++ more) := by
  induction k with
  | zero =>
    intro cs out
    exact ⟨0, "", by simp only [testLoop, String.append_empty]⟩
  | succ k ih =>
    intro cs out
    cases h : readTriple cs with
    | none =>
      refine ⟨1, "Invalid input" ++ "\n", ?_⟩
      simp only [testLoop, h, String.append_assoc]
    | some p =>
      obtain ⟨⟨a, b, c⟩, rest⟩ := p
      obtain ⟨status, more, hm⟩ := ih rest (out ++ verdict a b c ++ "\n")
      refine ⟨status, verdict a b c ++ "\n" ++ more, ?_⟩
      rw [testLoop_step k cs rest out a b c h, hm]
      simp only [String.append_assoc]

/-- C4 (as stated, refuted). The triple `2147483647 -2147483648 -1` is read, its largest
value is not the sum of the other two and twice the maximum is not `a + b + c`, but the
32-bit product `2 * max_val` wraps to `-2`, which is the sum, and the program prints
`YES`. -/
theorem verdict_wraps_to_yes :
    readTriple "2147483647 -2147483648 -1".toList
        = some ((2147483647, -2147483648, -1), []) ∧
      main "1\n2147483647 -2147483648 -1\n".toList = Outcome.exited 0 "YES\n" ∧
      ¬ largestIsSumOfOthers 2147483647 (-2147483648) (-1) ∧
      2 * max (2147483647 : Int) (max (-2147483648) (-1)) ≠ 2147483647 + -2147483648 + -1 := by
  refine ⟨by decide, by decide, ?_, by decide⟩
  unfold largestIsSumOfOthers
  omega

/-- C4 (amended). For a triple `(a, b, c)` read for a test such that `a + b`, `a + b + c`
and `2 * max(a, b, c)` fit a 32-bit `int`, the iteration writes, right after what was
written before, one line, which is `YES` when the largest of the three values equals the
sum of the other two, that is when twice the maximum equals `a + b + c`, and `NO`
otherwise. -/
theorem verdict_largest_is_sum (k : Nat) (cs rest : List Char) (out : String) (a b c : Int)
    (h : readTriple cs = some ((a, b, c), rest))
    (h1 : INT_MIN ≤ a + b ∧ a + b ≤ INT_MAX)
    (h2 : INT_MIN ≤ a + b + c ∧ a + b + c ≤ INT_MAX)
    (h3 : INT_MIN ≤ 2 * max a (max b c) ∧ 2 * max a (max b c) ≤ INT_MAX) :
    ∃ (w : String) (status : Nat) (more : String),
      testLoop (k + 1) cs out = Outcome.exited status (out ++ w ++ "\n" ++ more) ∧
      (w = "YES" ↔ largestIsSumOfOthers a b c) ∧
      (w = "NO" ↔ ¬ largestIsSumOfOthers a b c) ∧
      (largestIsSumOfOthers a b c ↔ 2 * max a (max b c) = a + b + c) := by
  unfold INT_MIN INT_MAX at h1 h2 h3
  have e1 : wrap32 (wrap32 (a + b) + c) = a + b + c := by
    rw [wrap32_eq (a + b) h1.1 h1.2]
    exact wrap32_eq _ h2.1 h2.2
  have e2 : wrap32 (2 * max a (max b c)) = 2 * max a (max b c) := wrap32_eq _ h3.1 h3.2
  obtain ⟨status, more, hm⟩ := testLoop_extends k rest (out ++ verdict a b c ++ "\n")
  refine ⟨verdict a b c, status, more, ?_, ?_, ?_, ?_⟩
  · rw [testLoop_step k cs rest out a b c h, hm]
  · rw [verdict_eq_yes_iff, e1, e2, twice_max_iff_largest]
  · rw [verdict_eq_no_iff, e1, e2, twice_max_iff_largest]
  · exact (twice_max_iff_largest a b c).symm

theorem verdict_largest_is_sum_witness :
    ∃ (w : String) (status : Nat) (more : String),
      testLoop 2 "2 3 5 3 4 5".toList "" = Outcome.exited status ("" ++ w ++ "\n" ++ more) ∧
      (w = "YES" ↔ largestIsSumOfOthers 2 3 5) ∧
      (w = "NO" ↔ ¬ largestIsSumOfOthers 2 3 5) ∧
      (largestIsSumOfOthers 2 3 5 ↔ 2 * max (2 : Int) (max 3 5) = 2 + 3 + 5) :=
  verdict_largest_is_sum 1 "2 3 5 3 4 5".toList " 3 4 5".toList "" 2 3 5 (by decide)
    (by decide) (by decide) (by decide)

/-- C5 (as stated, refuted). In the triple `(-3, -1, -2)` the first value is the sum of
the other two, and the program answers `NO`. -/
theorem one_is_sum_negative_gives_no :
    oneIsSumOfOthers (-3) (-1) (-2) ∧
      main "1\n-3 -1 -2\n".toList = Outcome.exited 0 "NO\n" := by
  refine ⟨Or.inl (by decide), by decide⟩

/-- C5 (amended). For a triple of `int` values none of which is negative, the line
written is `YES` when one value equals the sum of the other two and `NO` for every other
such triple. The two examples of the specification run as stated. -/
theorem verdict_one_is_sum_nonneg (a b c : Int) (ha : 0 ≤ a) (hb : 0 ≤ b) (hc : 0 ≤ c)
    (ha2 : a ≤ INT_MAX) (hb2 : b ≤ INT_MAX) (hc2 : c ≤ INT_MAX) :
    (oneIsSumOfOthers a b c → verdict a b c = "YES") ∧
      (¬ oneIsSumOfOthers a b c → verdict a b c = "NO") ∧
      main "1\n2 3 5\n".toList = Outcome.exited 0 "YES\n" ∧
      main "1\n3 4 5\n".toList = Outcome.exited 0 "NO\n" := by
  unfold INT_MAX at ha2 hb2 hc2
  have hM1 : a ≤ max a (max b c) := le_max_left _ _
  have hM2 : b ≤ max a (max b c) := le_trans (le_max_left _ _) (le_max_right _ _)
  have hM3 : c ≤ max a (max b c) := le_trans (le_max_right _ _) (le_max_right _ _)
  have hM4 : max a (max b c) = a ∨ max a (max b c) = b ∨ max a (max b c) = c := by
    rcases max_choice a (max b c) with h | h
    · exact Or.inl h
    · rcases max_choice b c with h2 | h2
      · exact Or.inr (Or.inl (by rw [h, h2]))
      · exact Or.inr (Or.inr (by rw [h, h2]))
  have key : wrap32 (2 * max a (max b c)) = wrap32 (wrap32 (a + b) + c) ↔
      oneIsSumOfOthers a b c := by
    rw [wrap32_wrap32_add]
    unfold wrap32 oneIsSumOfOthers
    generalize max a (max b c) = M at hM1 hM2 hM3 hM4
    omega
  refine ⟨?_, ?_, by decide, by decide⟩
  · intro h
    rw [verdict_eq_yes_iff]
    exact key.mpr h
  · intro h
    rw [verdict_eq_no_iff]
    exact fun hw => h (key.mp hw)

theorem verdict_one_is_sum_nonneg_witness :
    (oneIsSumOfOthers 5 2 3 → verdict 5 2 3 = "YES") ∧
      (¬ oneIsSumOfOthers 5 2 3 → verdict 5 2 3 = "NO") ∧
      main "1\n2 3 5\n".toList = Outcome.exited 0 "YES\n" ∧
      main "1\n3 4 5\n".toList = Outcome.exited 0 "NO\n" :=
  verdict_one_is_sum_nonneg 5 2 3 (by decide) (by decide) (by decide)
    (by decide) (by decide) (by decide)

theorem main_count_ok (inp rest : List Char) (x : Int) (h : readInt inp = some (x, rest))
    (h1 : 1 ≤ x) (h2 : x ≤ 9261) : main inp = testLoop x.toNat rest "" := by
  have hx2 : ¬ (x < 1 ∨ x > 9261) := by omega
  simp only [main, h, hx2, if_false]

/-- C6. When the extraction of the test count fails (no token, or a token that is not a
number) or yields a value outside `[1, 9261]`, the whole output is the line
`Invalid input` and the exit status is 1; when it yields `x` in `[1, 9261]` the program
is not stopped at this step and goes on with the loop over `x` tests. -/
theorem test_count_validation (inp : List Char) :
    (readInt inp = none → main inp = Outcome.exited 1 "Invalid input\n") ∧
      (∀ (x : Int) (rest : List Char), readInt inp = some (x, rest) →
        ¬ (1 ≤ x ∧ x ≤ 9261) → main inp = Outcome.exited 1 "Invalid input\n") ∧
      (∀ (x : Int) (rest : List Char), readInt inp = some (x, rest) →
        1 ≤ x → x ≤ 9261 → main inp = testLoop x.toNat rest "") := by
  refine ⟨?_, ?_, ?_⟩
  · intro h
    simp only [main, h]
    rfl
  · intro x rest h hx
    have hx2 : x < 1 ∨ x > 9261 := by omega
    simp only [main, h, hx2, if_true]
    rfl
  · intro x rest h h1 h2
    exact main_count_ok inp rest x h h1 h2

theorem test_count_validation_witness :
    main [] = Outcome.exited 1 "Invalid input\n" ∧
      main "abc".toList = Outcome.exited 1 "Invalid input\n" ∧
      main "0\n1 2 3\n".toList = Outcome.exited 1 "Invalid input\n" ∧
      main "9262\n1 2 3\n".toList = Outcome.exited 1 "Invalid input\n" ∧
      main "1\n1 2 3\n".toList = testLoop 1 "\n1 2 3\n".toList "" ∧
      main "9261\n1 2 3\n".toList = testLoop 9261 "\n1 2 3\n".toList "" :=
  ⟨(test_count_validation []).1 (by decide),
    (test_count_validation "abc".toList).1 (by decide),
    (test_count_validation "0\n1 2 3\n".toList).2.1 0 "\n1 2 3\n".toList
      (by decide) (by decide),
    (test_count_validation "9262\n1 2 3\n".toList).2.1 9262 "\n1 2 3\n".toList
      (by decide) (by decide),
    (test_count_validation "1\n1 2 3\n".toList).2.2 1 "\n1 2 3\n".toList
      (by decide) (by decide) (by decide),
    (test_count_validation "9261\n1 2 3\n".toList).2.2 9261 "\n1 2 3\n".toList
      (by decide) (by decide) (by decide)⟩

theorem testLoop_fails_at (j : Nat) :
    ∀ (n : Nat) (cs r : List Char) (out : String) (ts : List (Int × Int × Int)),
      j < n → readTriples j cs = some (ts, r) → readTriple r = none →
      testLoop n cs out = Outcome.exited 1 (out ++ verdictLines ts ++ "Invalid input\n") := by
  induction j with
  | zero =>
    intro n cs r out ts hn hts hr
    obtain ⟨k, rfl⟩ : ∃ k, n = k + 1 := ⟨n - 1, by omega⟩
    simp only [readTriples, Option.some.injEq, Prod.mk.injEq] at hts
    obtain ⟨rfl, rfl⟩ := hts
    simp only [testLoop, hr, verdictLines, String.append_empty]
    rw [String.append_assoc]
    rfl
  | succ j ih =>
    intro n cs r out ts hn hts hr
    obtain ⟨k, rfl⟩ : ∃ k, n = k + 1 := ⟨n - 1, by omega⟩
    simp only [readTriples] at hts
    cases h1 : readTriple cs with
    | none => simp [h1] at hts
    | some p =>
      obtain ⟨⟨a, b, c⟩, rest⟩ := p
      simp only [h1] at hts
      cases h2 : readTriples j rest with
      | none => simp [h2] at hts
      | some q =>
        obtain ⟨ts2, r2⟩ := q
        simp only [h2, Option.some.injEq, Prod.mk.injEq] at hts
        obtain ⟨rfl, rfl⟩ := hts
        rw [testLoop_step k cs rest out a b c h1,
          ih k rest r2 (out ++ verdict a b c ++ "\n") ts2 (by omega) h2 hr]
        simp only [verdictLines, String.append_assoc]

/-- C10. When the test count `x` is in `[1, 9261]`, the first `j` triples (`j < x`) are
read and the extraction of the next triple fails, the output is the `j` verdict lines of
the triples read followed by `Invalid input` as last line, and the exit status is 1: no
verdict is written for the failing triple or any later one. -/
theorem malformed_triple_fails_fast (inp r0 r : List Char) (x : Int) (j : Nat)
    (ts : List (Int × Int × Int)) (hx : readInt inp = some (x, r0))
    (h1 : 1 ≤ x) (h2 : x ≤ 9261) (hj : (j : Int) < x)
    (hts : readTriples j r0 = some (ts, r)) (hr : readTriple r = none) :
    main inp = Outcome.exited 1 (verdictLines ts ++ "Invalid input\n") ∧ ts.length = j := by
  constructor
  · rw [main_count_ok inp r0 x hx h1 h2,
      testLoop_fails_at j x.toNat r0 r "" ts (by omega) hts hr,
      String.append_assoc, String.empty_append]
  · clear hr hx hj
    induction j generalizing r0 ts with
    | zero =>
      simp only [readTriples, Option.some.injEq, Prod.mk.injEq] at hts
      rw [← hts.1]; rfl
    | succ j ih =>
      simp only [readTriples] at hts
      cases h1 : readTriple r0 with
      | none => simp [h1] at hts
      | some p =>
        obtain ⟨t, rest⟩ := p
        simp only [h1] at hts
        cases h2 : readTriples j rest with
        | none => simp [h2] at hts
        | some q =>
          obtain ⟨ts2, r2⟩ := q
          simp only [h2, Option.some.injEq, Prod.mk.injEq] at hts
          obtain ⟨hl, rfl⟩ := hts
          rw [← hl, List.length_cons, ih rest ts2 h2]

theorem malformed_triple_fails_fast_witness :
    main "3\n2 3 5\n3 4 x\n1 1 2\n".toList
        = Outcome.exited 1 (verdictLines [(2, 3, 5)] ++ "Invalid input\n") ∧
      [((2 : Int), (3 : Int), (5 : Int))].length = 1 :=
  malformed_triple_fails_fast "3\n2 3 5\n3 4 x\n1 1 2\n".toList
    "\n2 3 5\n3 4 x\n1 1 2\n".toList "\n3 4 x\n1 1 2\n".toList 3 1 [(2, 3, 5)]
    (by decide) (by decide) (by decide) (by decide) (by decide) (by decide)

theorem readTriples_length (j : Nat) :
    ∀ (cs r : List Char) (ts : List (Int × Int × Int)),
      readTriples j cs = some (ts, r) → ts.length = j := by
  induction j with
  | zero =>
    intro cs r ts h
    simp only [readTriples, Option.some.injEq, Prod.mk.injEq] at h
    rw [← h.1]; rfl
  | succ j ih =>
    intro cs r ts h
    simp only [readTriples] at h
    cases h1 : readTriple cs with
    | none => simp [h1] at h
    | some p =>
      obtain ⟨t, rest⟩ := p
      simp only [h1] at h
      cases h2 : readTriples j rest with
      | none => simp [h2] at h
      | some q =>
        obtain ⟨ts2, r2⟩ := q
        simp only [h2, Option.some.injEq, Prod.mk.injEq] at h
        obtain ⟨hl, rfl⟩ := h
        rw [← hl, List.length_cons, ih rest r2 ts2 h2]

theorem testLoop_succeeds (j : Nat) :
    ∀ (cs r : List Char) (out : String) (ts : List (Int × Int × Int)),
      readTriples j cs = some (ts, r) →
      testLoop j cs out = Outcome.exited 0 (out ++ verdictLines ts) := by
  induction j with
  | zero =>
    intro cs r out ts h
    simp only [readTriples, Option.some.injEq, Prod.mk.injEq] at h
    rw [← h.1]
    simp only [testLoop, verdictLines, String.append_empty]
  | succ j ih =>
    intro cs r out ts h
    simp only [readTriples] at h
    cases h1 : readTriple cs with
    | none => simp [h1] at h
    | some p =>
      obtain ⟨⟨a, b, c⟩, rest⟩ := p
      simp only [h1] at h
      cases h2 : readTriples j rest with
      | none => simp [h2] at h
      | some q =>
        obtain ⟨ts2, r2⟩ := q
        simp only [h2, Option.some.injEq, Prod.mk.injEq] at h
        obtain ⟨rfl, rfl⟩ := h
        rw [testLoop_step j cs rest out a b c h1, ih rest r2 _ ts2 h2]
        simp only [verdictLines, String.append_assoc]

theorem verdictLines_cons (t : Int × Int × Int) (ts : List (Int × Int × Int)) :
    verdictLines (t :: ts) = verdict t.1 t.2.1 t.2.2 ++ "\n" ++ verdictLines ts := by
  obtain ⟨a, b, c⟩ := t
  rfl

/-- C11. On valid input, a test count `x` in `[1, 9261]` followed by `x` well-formed
triples, the output is exactly `x` lines, the `i`-th one being the verdict (`YES` or
`NO`) of the `i`-th triple, and the exit status is 0. -/
theorem valid_input_prints_verdicts (inp r0 r : List Char) (x : Int)
    (ts : List (Int × Int × Int)) (hx : readInt inp = some (x, r0))
    (h1 : 1 ≤ x) (h2 : x ≤ 9261) (hts : readTriples x.toNat r0 = some (ts, r)) :
    main inp = Outcome.exited 0 (verdictLines ts) ∧ (ts.length : Int) = x ∧
      (∀ t ∈ ts, verdict t.1 t.2.1 t.2.2 = "YES" ∨ verdict t.1 t.2.1 t.2.2 = "NO") ∧
      verdictLines ts
        = String.join (ts.map (fun t => verdict t.1 t.2.1 t.2.2 ++ "\n")) := by
  refine ⟨?_, ?_, ?_, ?_⟩
  · rw [main_count_ok inp r0 x hx h1 h2, testLoop_succeeds x.toNat r0 r "" ts hts,
      String.empty_append]
  · rw [readTriples_length x.toNat r0 r ts hts]
    omega
  · intro t _
    exact verdict_cases t.1 t.2.1 t.2.2
  · clear hts
    induction ts with
    | nil => rfl
    | cons t ts ih =>
      rw [verdictLines_cons, ih, List.map_cons, string_join_cons]

theorem valid_input_prints_verdicts_witness :
    main "2\n2 3 5\n3 4 5\n".toList
        = Outcome.exited 0 (verdictLines [(2, 3, 5), (3, 4, 5)]) ∧
      (([((2 : Int), (3 : Int), (5 : Int)), (3, 4, 5)].length : Nat) : Int) = 2 ∧
      (∀ t ∈ [((2 : Int), (3 : Int), (5 : Int)), (3, 4, 5)],
        verdict t.1 t.2.1 t.2.2 = "YES" ∨ verdict t.1 t.2.1 t.2.2 = "NO") ∧
      verdictLines [(2, 3, 5), (3, 4, 5)]
        = String.join ([((2 : Int), (3 : Int), (5 : Int)), (3, 4, 5)].map
            (fun t => verdict t.1 t.2.1 t.2.2 ++ "\n")) :=
  valid_input_prints_verdicts "2\n2 3 5\n3 4 5\n".toList "\n2 3 5\n3 4 5\n".toList
    "\n".toList 2 [(2, 3, 5), (3, 4, 5)] (by decide) (by decide) (by decide) (by decide)

theorem max3_le_of_mem (a b c x y z : Int)
    (hx : x = a ∨ x = b ∨ x = c) (hy : y = a ∨ y = b ∨ y = c) (hz : z = a ∨ z = b ∨ z = c) :
    max x (max y z) ≤ max a (max b c) := by
  have ha : a ≤ max a (max b c) := le_max_left _ _
  have hb : b ≤ max a (max b c) := le_trans (le_max_left _ _) (le_max_right _ _)
  have hc : c ≤ max a (max b c) := le_trans (le_max_right _ _) (le_max_right _ _)
  refine max_le ?_ (max_le ?_ ?_)
  · rcases hx with rfl | rfl | rfl <;> assumption
  · rcases hy with rfl | rfl | rfl <;> assumption
  · rcases hz with rfl | rfl | rfl <;> assumption

/-- C15. The verdict does not depend on the order of the three values: for every
`a, b, c` and every rearrangement `x, y, z` of them, the verdict on `(x, y, z)` equals
the verdict on `(a, b, c)`. -/
theorem verdict_order_independent (a b c x y z : Int) (h : List.Perm [x, y, z] [a, b, c]) :
    verdict x y z = verdict a b c := by
  have hsum : x + y + z = a + b + c := by
    have := h.sum_eq
    simp only [List.sum_cons, List.sum_nil] at this
    omega
  have hmem : ∀ v : Int, v ∈ [x, y, z] ↔ v ∈ [a, b, c] := fun v => h.mem_iff
  simp only [List.mem_cons, List.mem_singleton, List.not_mem_nil, or_false] at hmem
  have hmax : max x (max y z) = max a (max b c) := by
    apply le_antisymm
    · exact max3_le_of_mem a b c x y z ((hmem x).mp (Or.inl rfl))
        ((hmem y).mp (Or.inr (Or.inl rfl))) ((hmem z).mp (Or.inr (Or.inr rfl)))
    · exact max3_le_of_mem x y z a b c ((hmem a).mpr (Or.inl rfl))
        ((hmem b).mpr (Or.inr (Or.inl rfl))) ((hmem c).mpr (Or.inr (Or.inr rfl)))
  unfold verdict
  simp only [hmax, wrap32_wrap32_add, hsum]

theorem verdict_order_independent_witness :
    verdict 5 2 3 = verdict 2 3 5 ∧ verdict 3 5 2 = verdict 2 3 5 ∧
      verdict 3 2 5 = verdict 2 3 5 ∧ verdict 2 5 3 = verdict 2 3 5 ∧
      verdict 5 3 2 = verdict 2 3 5 :=
  ⟨verdict_order_independent 2 3 5 5 2 3 (by decide),
    verdict_order_independent 2 3 5 3 5 2 (by decide),
    verdict_order_independent 2 3 5 3 2 5 (by decide),
    verdict_order_independent 2 3 5 2 5 3 (by decide),
    verdict_order_independent 2 3 5 5 3 2 (by decide)⟩

/-- C19. For 32-bit values with `|a|, |b|, |c| <= 2^29`, the 32-bit computations of
`a + b + c` and of `2 * max(a, b, c)` do not wrap, so the verdict computed in 32-bit
arithmetic equals the verdict computed in exact integers. -/
theorem verdict_no_overflow (a b c : Int) (ha : |a| ≤ 2 ^ 29) (hb : |b| ≤ 2 ^ 29)
    (hc : |c| ≤ 2 ^ 29) :
    wrap32 (a + b) = a + b ∧ wrap32 (wrap32 (a + b) + c) = a + b + c ∧
      wrap32 (2 * max a (max b c)) = 2 * max a (max b c) ∧
      verdict a b c = verdictExact a b c := by
  rw [abs_le] at ha hb hc
  norm_num at ha hb hc
  have hmax1 : max a (max b c) ≤ 536870912 := max_le ha.2 (max_le hb.2 hc.2)
  have hmax2 : -536870912 ≤ max a (max b c) := le_trans ha.1 (le_max_left _ _)
  have h1 : wrap32 (a + b) = a + b := wrap32_eq _ (by omega) (by omega)
  have h2 : wrap32 (wrap32 (a + b) + c) = a + b + c := by
    rw [h1]
    exact wrap32_eq _ (by omega) (by omega)
  have h3 : wrap32 (2 * max a (max b c)) = 2 * max a (max b c) :=
    wrap32_eq _ (by omega) (by omega)
  refine ⟨h1, h2, h3, ?_⟩
  unfold verdict verdictExact
  simp only [h2, h3]

theorem verdict_no_overflow_witness :
    wrap32 (536870912 + 536870912) = 536870912 + 536870912 ∧
      wrap32 (wrap32 (536870912 + 536870912) + 536870912)
        = 536870912 + 536870912 + 536870912 ∧
      wrap32 (2 * max (536870912 : Int) (max 536870912 536870912))
        = 2 * max (536870912 : Int) (max 536870912 536870912) ∧
      verdict 536870912 536870912 536870912 = verdictExact 536870912 536870912 536870912 :=
  verdict_no_overflow 536870912 536870912 536870912 (by decide) (by decide) (by decide)

end ASum

end Telegraph

/-! ## The search loop of `2181A.cpp` -/

namespace Telegraph

namespace A2181

theorem mid_eq (low high : Int) (h0 : 0 ≤ low) (hlh : low ≤ high) (hh : high ≤ 2147483647) :
    wrap32 (low + Int.tdiv (wrap32 (high - low)) 2) = low + (high - low) / 2 := by
  have e1 : wrap32 (high - low) = high - low := wrap32_eq _ (by omega) (by omega)
  have e2 : Int.tdiv (high - low) 2 = (high - low) / 2 :=
    Int.tdiv_eq_ediv (by omega) (by decide)
  rw [e1, e2]
  exact wrap32_eq _ (by omega) (by omega)

theorem searchLoopWith_gt (p : Int → Bool) (fuel : Nat) (low high ans_k : Int)
    (h : ¬ low ≤ high) : searchLoopWith p fuel low high ans_k = some ans_k := by
  cases fuel <;> simp only [searchLoopWith, h, if_false]

/-- One iteration from a state with `0 <= low <= high <= INT_MAX`: `mid` is the exact
midpoint and only `mid + 1` can wrap. -/
theorem searchLoopWith_succ (p : Int → Bool) (fuel : Nat) (low high ans_k : Int)
    (h0 : 0 ≤ low) (hlh : low ≤ high) (hh : high ≤ 2147483647) :
    searchLoopWith p (fuel + 1) low high ans_k =
      if p (low + (high - low) / 2) = true then
        searchLoopWith p fuel (wrap32 (low + (high - low) / 2 + 1)) high
          (low + (high - low) / 2)
      else searchLoopWith p fuel low (low + (high - low) / 2 - 1) ans_k := by
  have e := mid_eq low high h0 hlh hh
  have e2 : wrap32 (low + (high - low) / 2 - 1) = low + (high - low) / 2 - 1 :=
    wrap32_eq _ (by omega) (by omega)
  simp only [searchLoopWith, hlh, if_true, e, e2]

theorem searchLoopWith_mono (p : Int → Bool) (fuel : Nat) :
    ∀ (low high ans_k a : Int), searchLoopWith p fuel low high ans_k = some a →
      ∀ k : Nat, searchLoopWith p (fuel + k) low high ans_k = some a := by
  induction fuel with
  | zero =>
    intro low high ans_k a h k
    by_cases hle : low ≤ high
    · simp [searchLoopWith, hle] at h
    · rw [searchLoopWith_gt p 0 low high ans_k hle] at h
      rw [searchLoopWith_gt p _ low high ans_k hle]
      exact h
  | succ fuel ih =>
    intro low high ans_k a h k
    have hk : fuel + 1 + k = (fuel + k) + 1 := by omega
    rw [hk]
    by_cases hle : low ≤ high
    · simp only [searchLoopWith, hle, if_true] at h ⊢
      by_cases hp : p (wrap32 (low + Int.tdiv (wrap32 (high - low)) 2)) = true
      · simp only [hp, if_true] at h ⊢
        exact ih _ _ _ _ h k
      · simp only [hp] at h ⊢
        exact ih _ _ _ _ h k
    · rw [searchLoopWith_gt p _ low high ans_k hle] at h
      rw [searchLoopWith_gt p _ low high ans_k hle]
      exact h

theorem diverges_of_next (p : Int → Bool) (low high ans_k : Int) (hle : low ≤ high)
    (hnext : ∀ fuel : Nat, searchLoopWith p (fuel + 1) low high ans_k = none) :
    Diverges p low high ans_k := by
  intro fuel
  cases fuel with
  | zero => simp only [searchLoopWith, hle, if_true]
  | succ n => exact hnext n

/-- After `low` has wrapped to `INT_MIN` with `high = INT_MAX`, the loop never returns. -/
theorem diverges_wrapped (p : Int → Bool) (ans_k : Int) :
    Diverges p (-2147483648) 2147483647 ans_k := by
  have m1 : wrap32 (-2147483648 + Int.tdiv (wrap32 (2147483647 - -2147483648)) 2)
      = -2147483648 := by decide
  have m2 : wrap32 (-2147483647 + Int.tdiv (wrap32 (2147483647 - -2147483647)) 2)
      = -2147483648 := by decide
  have w1 : wrap32 (-2147483648 + 1) = -2147483647 := by decide
  have w2 : wrap32 (-2147483648 - 1) = 2147483647 := by decide
  have l1 : (-2147483648 : Int) ≤ 2147483647 := by decide
  have l2 : (-2147483647 : Int) ≤ 2147483647 := by decide
  by_cases hp : p (-2147483648) = true
  · have hB : ∀ (fuel : Nat) (a0 : Int),
        searchLoopWith p fuel (-2147483647) 2147483647 a0 = none := by
      intro fuel
      induction fuel with
      | zero =>
        intro a0
        simp only [searchLoopWith, l2, if_true]
      | succ n ih =>
        intro a0
        simp only [searchLoopWith, l2, if_true, m2, hp, w1]
        exact ih _
    apply diverges_of_next p _ _ _ l1
    intro fuel
    simp only [searchLoopWith, l1, if_true, m1, hp, w1]
    exact hB fuel _
  · intro fuel
    induction fuel with
    | zero => simp only [searchLoopWith, l1, if_true]
    | succ n ih =>
      simp only [searchLoopWith, l1, if_true, m1, hp, w2]
      exact ih

/-- From a state with `0 <= low` and `high <= INT_MAX`, a budget whose power of two
exceeds the width of the interval is complete: the loop returns within it, or it never
returns. -/
theorem searchLoopWith_returns_or_diverges (p : Int → Bool) (fuel : Nat) :
    ∀ low high ans_k : Int, 0 ≤ low → high ≤ 2147483647 → high - low + 1 < 2 ^ fuel →
      (∃ a : Int, searchLoopWith p fuel low high ans_k = some a) ∨
        Diverges p low high ans_k := by
  induction fuel with
  | zero =>
    intro low high ans_k _ _ hw
    have hn : ¬ low ≤ high := by
      simp only [pow_zero] at hw
      omega
    exact Or.inl ⟨ans_k, searchLoopWith_gt p 0 low high ans_k hn⟩
  | succ fuel ih =>
    intro low high ans_k h0 hh hw
    by_cases hle : low ≤ high
    · have hpow : (2 : Int) ^ (fuel + 1) = 2 * 2 ^ fuel := by
        rw [pow_succ]
        ring
      rw [hpow] at hw
      have hstep := fun f : Nat => searchLoopWith_succ p f low high ans_k h0 hle hh
      by_cases hp : p (low + (high - low) / 2) = true
      · by_cases hmax : low + (high - low) / 2 = 2147483647
        · right
          apply diverges_of_next p low high ans_k hle
          intro f
          rw [hstep f, if_pos hp, hmax]
          have hhigh : high = 2147483647 := by omega
          have hw1 : wrap32 (2147483647 + 1) = -2147483648 := by decide
          rw [hw1, hhigh]
          exact diverges_wrapped p _ f
        · have hw1 : wrap32 (low + (high - low) / 2 + 1) = low + (high - low) / 2 + 1 :=
            wrap32_eq _ (by omega) (by omega)
          rcases ih (low + (high - low) / 2 + 1) high (low + (high - low) / 2)
              (by omega) hh (by omega) with ⟨a, ha⟩ | hd
          · left
            exact ⟨a, by rw [hstep fuel, if_pos hp, hw1, ha]⟩
          · right
            apply diverges_of_next p low high ans_k hle
            intro f
            rw [hstep f, if_pos hp, hw1]
            exact hd f
      · rcases ih low (low + (high - low) / 2 - 1) ans_k h0 (by omega) (by omega)
            with ⟨a, ha⟩ | hd
        · left
          exact ⟨a, by rw [hstep fuel, if_neg hp, ha]⟩
        · right
          apply diverges_of_next p low high ans_k hle
          intro f
          rw [hstep f, if_neg hp]
          exact hd f
    · exact Or.inl ⟨ans_k, searchLoopWith_gt p _ low high ans_k hle⟩

/-- The budget of 64 iterations is complete for every start `low = 0`, `high = wrap32 _`:
whatever a larger budget returns, 64 iterations return as well. -/
theorem searchLoopWith_budget (p : Int → Bool) (x : Int) (fuel : Nat) (a : Int)
    (h : searchLoopWith p fuel 0 (wrap32 x) (-1) = some a) :
    searchLoopWith p 64 0 (wrap32 x) (-1) = some a := by
  have hr := wrap32_range x
  rcases searchLoopWith_returns_or_diverges p 64 0 (wrap32 x) (-1) (le_refl 0) hr.2
      (by norm_num; omega) with ⟨b, hb⟩ | hd
  · have h1 := searchLoopWith_mono p fuel 0 (wrap32 x) (-1) a h 64
    have h2 := searchLoopWith_mono p 64 0 (wrap32 x) (-1) b hb fuel
    rw [Nat.add_comm] at h2
    rw [h1] at h2
    rw [hb]
    exact h2.symm
  · rw [hd fuel] at h
    exact absurd h (by simp)

theorem searchLoop_eq_with (m : Int) (street g_count : List Int) (fuel : Nat) :
    ∀ low high ans_k : Int, searchLoop m street g_count fuel low high ans_k
      = searchLoopWith (fun mid => validate mid m street g_count) fuel low high ans_k := by
  induction fuel with
  | zero =>
    intro low high ans_k
    rfl
  | succ fuel ih =>
    intro low high ans_k
    simp only [searchLoop, searchLoopWith, ih]

theorem search_eq_with (m : Int) (street g_count : List Int) :
    search m street g_count
      = searchLoopWith (fun mid => validate mid m street g_count) 64 0 (wrap32 (m - 1)) (-1) := by
  unfold search
  exact searchLoop_eq_with m street g_count 64 0 _ (-1)

/-- The budget of `search` is complete: `search` gives `none` exactly when the search
loop of the row never returns, whatever the number of iterations allowed. -/
theorem search_eq_none_iff (m : Int) (street g_count : List Int) :
    search m street g_count = none ↔
      ∀ fuel : Nat, searchLoop m street g_count fuel 0 (wrap32 (m - 1)) (-1) = none := by
  constructor
  · intro h fuel
    cases hf : searchLoop m street g_count fuel 0 (wrap32 (m - 1)) (-1) with
    | none => rfl
    | some a =>
      rw [searchLoop_eq_with] at hf
      have := searchLoopWith_budget _ (m - 1) fuel a hf
      rw [← search_eq_with, h] at this
      exact absurd this (by simp)
  · intro h
    exact h 64

/-- Invariant of the binary search when feasibility is downward closed on `[0, top]` and
`top` is below `INT_MAX`, so that nothing wraps. -/
theorem searchLoopWith_spec (p : Int → Bool) (top : Int) (htop : top < 2147483647)
    (hmono : ∀ x y : Int, 0 ≤ x → x ≤ y → y ≤ top → p y = true → p x = true)
    (fuel : Nat) :
    ∀ low high ans_k : Int, high - low + 1 < 2 ^ fuel → 0 ≤ low → low ≤ high + 1 →
      high ≤ top → ans_k = low - 1 → (0 < low → p (low - 1) = true) →
      (∀ x : Int, high < x → x ≤ top → p x = false) →
      ∃ a : Int, searchLoopWith p fuel low high ans_k = some a ∧
        -1 ≤ a ∧ a ≤ top ∧ (0 ≤ a → p a = true) ∧
        ∀ x : Int, a < x → x ≤ top → p x = false := by
  induction fuel with
  | zero =>
    intro low high ans_k hf h0 hlh htp hans hlow hhigh
    have hn : ¬ low ≤ high := by
      simp only [pow_zero] at hf
      omega
    refine ⟨ans_k, searchLoopWith_gt p 0 low high ans_k hn, by omega, by omega, ?_, ?_⟩
    · intro ha
      rw [hans]
      exact hlow (by omega)
    · intro x hx hxt
      exact hhigh x (by omega) hxt
  | succ fuel ih =>
    intro low high ans_k hf h0 hlh htp hans hlow hhigh
    by_cases hle : low ≤ high
    · have hpow : (2 : Int) ^ (fuel + 1) = 2 * 2 ^ fuel := by
        rw [pow_succ]
        ring
      rw [hpow] at hf
      rw [searchLoopWith_succ p fuel low high ans_k h0 hle (by omega)]
      by_cases hv : p (low + (high - low) / 2) = true
      · rw [if_pos hv, wrap32_eq (low + (high - low) / 2 + 1) (by omega) (by omega)]
        refine ih _ _ _ (by omega) (by omega) (by omega) htp (by omega) ?_ hhigh
        intro _
        rw [add_sub_cancel_right]
        exact hv
      · rw [if_neg hv]
        refine ih _ _ _ (by omega) h0 (by omega) (by omega) hans hlow ?_
        intro x hx hxt
        by_contra hx2
        have hx3 : p x = true := by
          cases hc : p x
          · exact absurd hc hx2
          · rfl
        exact hv (hmono _ x (by omega) (by omega) hxt hx3)
    · rw [searchLoopWith_gt p _ low high ans_k hle]
      refine ⟨ans_k, rfl, by omega, by omega, ?_, ?_⟩
      · intro ha
        rw [hans]
        exact hlow (by omega)
      · intro x hx hxt
        exact hhigh x (by omega) hxt

/-- Without any assumption on the feasibility test, and with `top` below `INT_MAX`, the
loop returns `-1` or a value of `[0, top]` at which the test answered true. -/
theorem searchLoopWith_sound (p : Int → Bool) (top : Int) (htop : top < 2147483647)
    (fuel : Nat) :
    ∀ low high ans_k : Int, high - low + 1 < 2 ^ fuel → 0 ≤ low → high ≤ top →
      (ans_k = -1 ∨ (0 ≤ ans_k ∧ ans_k ≤ top ∧ p ans_k = true)) →
      ∃ a : Int, searchLoopWith p fuel low high ans_k = some a ∧
        (a = -1 ∨ (0 ≤ a ∧ a ≤ top ∧ p a = true)) := by
  induction fuel with
  | zero =>
    intro low high ans_k hf _ _ hans
    have hn : ¬ low ≤ high := by
      simp only [pow_zero] at hf
      omega
    exact ⟨ans_k, searchLoopWith_gt p 0 low high ans_k hn, hans⟩
  | succ fuel ih =>
    intro low high ans_k hf h0 htp hans
    by_cases hle : low ≤ high
    · have hpow : (2 : Int) ^ (fuel + 1) = 2 * 2 ^ fuel := by
        rw [pow_succ]
        ring
      rw [hpow] at hf
      rw [searchLoopWith_succ p fuel low high ans_k h0 hle (by omega)]
      by_cases hv : p (low + (high - low) / 2) = true
      · rw [if_pos hv, wrap32_eq (low + (high - low) / 2 + 1) (by omega) (by omega)]
        exact ih _ _ _ (by omega) (by omega) htp (Or.inr ⟨by omega, by omega, hv⟩)
      · rw [if_neg hv]
        exact ih _ _ _ (by omega) h0 (by omega) hans
    · rw [searchLoopWith_gt p _ low high ans_k hle]
      exact ⟨ans_k, rfl, hans⟩

/-- When the feasibility test never answers true the loop returns its initial answer,
also from `high = INT_MAX`. -/
theorem searchLoopWith_all_false (p : Int → Bool) (hp : ∀ x : Int, p x = false)
    (fuel : Nat) :
    ∀ low high ans_k : Int, high - low + 1 < 2 ^ fuel → 0 ≤ low → high ≤ 2147483647 →
      searchLoopWith p fuel low high ans_k = some ans_k := by
  induction fuel with
  | zero =>
    intro low high ans_k hf _ _
    have hn : ¬ low ≤ high := by
      simp only [pow_zero] at hf
      omega
    exact searchLoopWith_gt p 0 low high ans_k hn
  | succ fuel ih =>
    intro low high ans_k hf h0 hh
    by_cases hle : low ≤ high
    · have hpow : (2 : Int) ^ (fuel + 1) = 2 * 2 ^ fuel := by
        rw [pow_succ]
        ring
      rw [hpow] at hf
      rw [searchLoopWith_succ p fuel low high ans_k h0 hle hh, hp]
      simp only [Bool.false_eq_true, if_false]
      exact ih _ _ _ (by omega) h0 (by omega)
    · exact searchLoopWith_gt p _ low high ans_k hle

end A2181

end Telegraph

/-! ## The predicate `validate` of `2181A.cpp` -/

namespace Telegraph

namespace A2181

theorem validateLoopExact_iff (mid m : Int) (street g_count : List Int) (k : Nat) :
    ∀ i : Nat, validateLoopExact mid m street g_count k i = true ↔
      ∀ j : Nat, i ≤ j → j < i + k → street.getD j 0 ≠ 0 →
        g_count.getD j 0 - street.getD j 0 ≠ 0 ∧
          street.getD j 0 ≤ (m - mid) * (g_count.getD j 0 - street.getD j 0) := by
  induction k with
  | zero =>
    intro i
    simp only [validateLoopExact, true_iff]
    intro j h1 h2
    omega
  | succ k ih =>
    intro i
    have split : ∀ P : Nat → Prop,
        (∀ j : Nat, i ≤ j → j < i + (k + 1) → P j) ↔
          (P i ∧ ∀ j : Nat, i + 1 ≤ j → j < i + 1 + k → P j) := by
      intro P
      constructor
      · intro h
        exact ⟨h i (le_refl i) (by omega), fun j h1 h2 => h j (by omega) (by omega)⟩
      · rintro ⟨h0, h⟩ j h1 h2
        rcases Nat.eq_or_lt_of_le h1 with heq | hlt
        · rw [← heq]; exact h0
        · exact h j hlt (by omega)
    rw [split]
    unfold validateLoopExact
    by_cases hz : street.getD i 0 = 0
    · simp only [hz, if_true, ih (i + 1)]
      constructor
      · intro h
        exact ⟨fun hne => absurd rfl hne, by simpa [hz] using h⟩
      · rintro ⟨_, h⟩
        simpa [hz] using h
    · simp only [hz, if_false]
      by_cases hr : g_count.getD i 0 - street.getD i 0 = 0
      · simp only [hr, if_true]
        constructor
        · intro h; exact absurd h (by decide)
        · rintro ⟨h0, _⟩
          exact absurd rfl (h0 hz).1
      · simp only [hr, if_false]
        by_cases hlt : (m - mid) * (g_count.getD i 0 - street.getD i 0) < street.getD i 0
        · simp only [hlt, if_true]
          constructor
          · intro h; exact absurd h (by decide)
          · rintro ⟨h0, _⟩
            exact absurd hlt (not_lt.mpr (h0 hz).2)
        · simp only [hlt, if_false, ih (i + 1)]
          constructor
          · intro h
            exact ⟨fun _ => ⟨hr, not_lt.mp hlt⟩, h⟩
          · rintro ⟨_, h⟩
            exact h

theorem validateExact_iff (mid m : Int) (street g_count : List Int) :
    validateExact mid m street g_count = true ↔
      ∀ j : Nat, j < 26 → street.getD j 0 ≠ 0 →
        g_count.getD j 0 - street.getD j 0 ≠ 0 ∧
          street.getD j 0 ≤ (m - mid) * (g_count.getD j 0 - street.getD j 0) := by
  unfold validateExact
  rw [validateLoopExact_iff]
  constructor
  · intro h j hj
    exact h j (Nat.zero_le j) (by omega)
  · intro h j _ hj
    exact h j (by omega)

theorem validateExact_mono (m mid mid2 : Int) (street g_count : List Int)
    (hb : ∀ i : Nat, i < 26 → 0 ≤ street.getD i 0 ∧ street.getD i 0 ≤ g_count.getD i 0)
    (hle : mid2 ≤ mid) (hv : validateExact mid m street g_count = true) :
    validateExact mid2 m street g_count = true := by
  rw [validateExact_iff] at hv ⊢
  intro j hj hne
  obtain ⟨h1, h2⟩ := hv j hj hne
  refine ⟨h1, ?_⟩
  have hrest : 0 ≤ g_count.getD j 0 - street.getD j 0 := by
    have := (hb j hj).2
    omega
  have hstep : (m - mid) * (g_count.getD j 0 - street.getD j 0) ≤
      (m - mid2) * (g_count.getD j 0 - street.getD j 0) :=
    mul_le_mul_of_nonneg_right (by omega) hrest
  exact le_trans h2 hstep

theorem validateLoop_eq_exact (mid m : Int) (street g_count : List Int)
    (h32 : wrap32 (m - mid) = m - mid)
    (h64 : ∀ i : Nat, i < 26 →
      wrap64 (g_count.getD i 0 - street.getD i 0) = g_count.getD i 0 - street.getD i 0 ∧
      wrap64 ((m - mid) * (g_count.getD i 0 - street.getD i 0))
        = (m - mid) * (g_count.getD i 0 - street.getD i 0))
    (k : Nat) :
    ∀ i : Nat, i + k ≤ 26 →
      validateLoop mid m street g_count k i = validateLoopExact mid m street g_count k i := by
  induction k with
  | zero =>
    intro i _
    rfl
  | succ k ih =>
    intro i hi
    obtain ⟨h1, h2⟩ := h64 i (by omega)
    simp only [validateLoop, validateLoopExact, h32, h1, h2, ih (i + 1) (by omega)]

theorem mul_bounds (x y A B : Int) (hx1 : -A ≤ x) (hx2 : x ≤ A) (hy1 : -B ≤ y) (hy2 : y ≤ B) :
    -(A * B) ≤ x * y ∧ x * y ≤ A * B := by
  have hA : 0 ≤ A := by omega
  have hB : 0 ≤ B := by omega
  have h := abs_mul x y
  have h2 : |x| * |y| ≤ A * B :=
    mul_le_mul (abs_le.mpr ⟨hx1, hx2⟩) (abs_le.mpr ⟨hy1, hy2⟩) (abs_nonneg y) hA
  have h3 : |x * y| ≤ A * B := by rw [h]; exact h2
  exact abs_le.mp h3

/-- No step of the fixed-width `validate` wraps when `m - mid` fits 32 bits and all the
counts are 32-bit values. -/
theorem validate_eq_exact (mid m : Int) (street g_count : List Int)
    (hd : INT_MIN ≤ m - mid ∧ m - mid ≤ INT_MAX)
    (hc : ∀ i : Nat, i < 26 →
      INT_MIN ≤ street.getD i 0 ∧ street.getD i 0 ≤ INT_MAX ∧
      INT_MIN ≤ g_count.getD i 0 ∧ g_count.getD i 0 ≤ INT_MAX) :
    validate mid m street g_count = validateExact mid m street g_count := by
  unfold INT_MIN INT_MAX at hd hc
  have h32 : wrap32 (m - mid) = m - mid := wrap32_eq _ hd.1 hd.2
  unfold validate validateExact
  refine validateLoop_eq_exact mid m street g_count h32 ?_ 26 0 (by decide)
  intro i hi
  obtain ⟨b1, b2, b3, b4⟩ := hc i hi
  obtain ⟨p1, p2⟩ := mul_bounds (m - mid) (g_count.getD i 0 - street.getD i 0)
    2147483648 4294967295 (by omega) (by omega) (by omega) (by omega)
  exact ⟨wrap64_eq _ (by omega) (by omega), wrap64_eq _ (by omega) (by omega)⟩

theorem validate_iff (mid m : Int) (street g_count : List Int)
    (hd : INT_MIN ≤ m - mid ∧ m - mid ≤ INT_MAX)
    (hc : ∀ i : Nat, i < 26 →
      INT_MIN ≤ street.getD i 0 ∧ street.getD i 0 ≤ INT_MAX ∧
      INT_MIN ≤ g_count.getD i 0 ∧ g_count.getD i 0 ≤ INT_MAX) :
    validate mid m street g_count = true ↔
      ∀ j : Nat, j < 26 → street.getD j 0 ≠ 0 →
        g_count.getD j 0 - street.getD j 0 ≠ 0 ∧
          street.getD j 0 ≤ (m - mid) * (g_count.getD j 0 - street.getD j 0) := by
  rw [validate_eq_exact mid m street g_count hd hc, validateExact_iff]

theorem validateLoop_of_zero (mid m : Int) (street g_count : List Int) (k : Nat) :
    ∀ i : Nat, (∀ j : Nat, i ≤ j → j < i + k → street.getD j 0 = 0) →
      validateLoop mid m street g_count k i = true := by
  induction k with
  | zero =>
    intro i _
    rfl
  | succ k ih =>
    intro i h
    have hz : street.getD i 0 = 0 := h i (le_refl i) (by omega)
    simp only [validateLoop, hz, if_true]
    exact ih (i + 1) (fun j h1 h2 => h j (by omega) (by omega))

theorem validate_of_zero_row (mid m : Int) (street g_count : List Int)
    (hz : ∀ i : Nat, i < 26 → street.getD i 0 = 0) : validate mid m street g_count = true := by
  unfold validate
  exact validateLoop_of_zero mid m street g_count 26 0 (fun j _ h2 => hz j (by omega))

theorem validateLoop_of_exhausted (mid m : Int) (street g_count : List Int) (i : Nat)
    (hne : street.getD i 0 ≠ 0) (heq : g_count.getD i 0 = street.getD i 0) (k : Nat) :
    ∀ j : Nat, j ≤ i → i < j + k → validateLoop mid m street g_count k j = false := by
  induction k with
  | zero =>
    intro j h1 h2
    omega
  | succ k ih =>
    intro j h1 h2
    have hw0 : wrap64 0 = 0 := by decide
    unfold validateLoop
    by_cases hji : j = i
    · subst hji
      simp only [hne, if_false, heq, sub_self, hw0, if_true]
    · by_cases hz : street.getD j 0 = 0
      · simp only [hz, if_true]
        exact ih (j + 1) (by omega) (by omega)
      · simp only [hz, if_false]
        by_cases hr : wrap64 (g_count.getD j 0 - street.getD j 0) = 0
        · simp only [hr, if_true]
        · simp only [hr, if_false]
          by_cases hl : wrap64 (wrap32 (m - mid) * wrap64 (g_count.getD j 0 - street.getD j 0))
              < street.getD j 0
          · simp only [hl, if_true]
          · simp only [hl, if_false]
            exact ih (j + 1) (by omega) (by omega)

theorem validate_of_exhausted (mid m : Int) (street g_count : List Int) (i : Nat)
    (hi : i < 26) (hne : street.getD i 0 ≠ 0) (heq : g_count.getD i 0 = street.getD i 0) :
    validate mid m street g_count = false := by
  unfold validate
  exact validateLoop_of_exhausted mid m street g_count i hne heq 26 0 (Nat.zero_le i)
    (by omega)

/-- Feasibility is downward closed as long as the two differences `m - mid` fit 32 bits
and the counts are 32-bit values with `0 <= row <= global`. -/
theorem validate_mono (m mid mid2 : Int) (street g_count : List Int)
    (hb : ∀ i : Nat, i < 26 → 0 ≤ street.getD i 0 ∧ street.getD i 0 ≤ g_count.getD i 0 ∧
      g_count.getD i 0 ≤ INT_MAX)
    (hle : mid2 ≤ mid) (h1 : INT_MIN ≤ m - mid) (h2 : m - mid2 ≤ INT_MAX)
    (hv : validate mid m street g_count = true) :
    validate mid2 m street g_count = true := by
  have hc : ∀ i : Nat, i < 26 →
      INT_MIN ≤ street.getD i 0 ∧ street.getD i 0 ≤ INT_MAX ∧
      INT_MIN ≤ g_count.getD i 0 ∧ g_count.getD i 0 ≤ INT_MAX := by
    intro i hi
    obtain ⟨b1, b2, b3⟩ := hb i hi
    unfold INT_MIN
    unfold INT_MAX at b3 ⊢
    omega
  rw [validate_eq_exact mid m street g_count ⟨h1, by omega⟩ hc] at hv
  rw [validate_eq_exact mid2 m street g_count ⟨by omega, h2⟩ hc]
  exact validateExact_mono m mid mid2 street g_count (fun i hi => ⟨(hb i hi).1, (hb i hi).2.1⟩)
    hle hv

/-- C2 (as stated, refuted). For `mid = -1` and `m = 2147483647` the difference `m - mid`
does not fit 32 bits and wraps to `-2147483648`: with one item of the category in the
row and one in another row `validate` returns false, although every present category has
a nonzero remainder and `(m - mid) * (g_count[i] - street[i]) >= street[i]`. -/
theorem validate_wraps_at_large_difference :
    validate (-1) 2147483647 (1 :: List.replicate 25 0) (2 :: List.replicate 25 0) = false ∧
      ∀ i : Nat, i < 26 → 0 < (1 :: List.replicate 25 (0 : Int)).getD i 0 →
        (2 :: List.replicate 25 (0 : Int)).getD i 0
            - (1 :: List.replicate 25 (0 : Int)).getD i 0 ≠ 0 ∧
          (2147483647 - -1) * ((2 :: List.replicate 25 (0 : Int)).getD i 0
            - (1 :: List.replicate 25 (0 : Int)).getD i 0)
            ≥ (1 :: List.replicate 25 (0 : Int)).getD i 0 := by
  decide

/-- C2 (amended). For 26-entry arrays of 32-bit counts with non-negative row counts, and
`mid`, `m` whose difference `m - mid` fits a 32-bit `int`, `validate` returns true
exactly when every category `i` in `0..25` with `street[i] > 0` has a nonzero remainder
`g_count[i] - street[i]` and `(m - mid) * (g_count[i] - street[i]) >= street[i]`; it
returns false in every other case. -/
theorem validate_contract (mid m : Int) (street g_count : List Int)
    (_hs : street.length = 26) (_hg : g_count.length = 26)
    (hnn : ∀ i : Nat, i < 26 → 0 ≤ street.getD i 0)
    (hd : INT_MIN ≤ m - mid ∧ m - mid ≤ INT_MAX)
    (hc : ∀ i : Nat, i < 26 →
      INT_MIN ≤ street.getD i 0 ∧ street.getD i 0 ≤ INT_MAX ∧
      INT_MIN ≤ g_count.getD i 0 ∧ g_count.getD i 0 ≤ INT_MAX) :
    (validate mid m street g_count = true ↔
      ∀ i : Nat, i < 26 → 0 < street.getD i 0 →
        g_count.getD i 0 - street.getD i 0 ≠ 0 ∧
          (m - mid) * (g_count.getD i 0 - street.getD i 0) ≥ street.getD i 0) ∧
    (validate mid m street g_count = false ↔
      ¬ ∀ i : Nat, i < 26 → 0 < street.getD i 0 →
        g_count.getD i 0 - street.getD i 0 ≠ 0 ∧
          (m - mid) * (g_count.getD i 0 - street.getD i 0) ≥ street.getD i 0) := by
  have main : validate mid m street g_count = true ↔
      ∀ i : Nat, i < 26 → 0 < street.getD i 0 →
        g_count.getD i 0 - street.getD i 0 ≠ 0 ∧
          (m - mid) * (g_count.getD i 0 - street.getD i 0) ≥ street.getD i 0 := by
    rw [validate_iff mid m street g_count hd hc]
    constructor
    · intro h i hi hpos
      exact h i hi (ne_of_gt hpos)
    · intro h i hi hne
      exact h i hi (lt_of_le_of_ne (hnn i hi) (Ne.symm hne))
  refine ⟨main, ?_⟩
  rw [← main]
  cases validate mid m street g_count <;> simp

theorem validate_contract_witness :
    (validate 3 5 [2, 1, 0, 0, 0, 0, 0, 0, 0, 0, 0, 0, 0, 0, 0, 0, 0, 0, 0, 0, 0, 0, 0, 0, 0, 0]
        [3, 3, 2, 0, 0, 0, 0, 0, 0, 0, 0, 0, 0, 0, 0, 0, 0, 0, 0, 0, 0, 0, 0, 0, 0, 0] = true ↔
      ∀ i : Nat, i < 26 →
        0 < ([2, 1, 0, 0, 0, 0, 0, 0, 0, 0, 0, 0, 0, 0, 0, 0, 0, 0, 0, 0, 0, 0, 0, 0, 0, 0]
          : List Int).getD i 0 →
        ([3, 3, 2, 0, 0, 0, 0, 0, 0, 0, 0, 0, 0, 0, 0, 0, 0, 0, 0, 0, 0, 0, 0, 0, 0, 0]
          : List Int).getD i 0 -
          ([2, 1, 0, 0, 0, 0, 0, 0, 0, 0, 0, 0, 0, 0, 0, 0, 0, 0, 0, 0, 0, 0, 0, 0, 0, 0]
          : List Int).getD i 0 ≠ 0 ∧
        (5 - 3) *
          (([3, 3, 2, 0, 0, 0, 0, 0, 0, 0, 0, 0, 0, 0, 0, 0, 0, 0, 0, 0, 0, 0, 0, 0, 0, 0]
            : List Int).getD i 0 -
          ([2, 1, 0, 0, 0, 0, 0, 0, 0, 0, 0, 0, 0, 0, 0, 0, 0, 0, 0, 0, 0, 0, 0, 0, 0, 0]
            : List Int).getD i 0) ≥
          ([2, 1, 0, 0, 0, 0, 0, 0, 0, 0, 0, 0, 0, 0, 0, 0, 0, 0, 0, 0, 0, 0, 0, 0, 0, 0]
            : List Int).getD i 0) ∧
    validate 4 5 [2, 1, 0, 0, 0, 0, 0, 0, 0, 0, 0, 0, 0, 0, 0, 0, 0, 0, 0, 0, 0, 0, 0, 0, 0, 0]
        [3, 3, 2, 0, 0, 0, 0, 0, 0, 0, 0, 0, 0, 0, 0, 0, 0, 0, 0, 0, 0, 0, 0, 0, 0, 0] = false :=
  ⟨(validate_contract 3 5 _ _ (by decide) (by decide) (by decide) (by decide)
      (by decide)).1, by decide⟩

/-- C13. For a 32-bit `m >= 1`, `0 <= mid <= m - 1` and 32-bit counts with
`0 <= street[i] <= g_count[i]`, no step of the fixed-width computation in `validate`
wraps (`m - mid` in 32 bits, `rest` and `(m - mid) * rest` in 64 bits), so the result of
the fixed-width `validate` equals the result computed in exact integers. -/
theorem validate_no_overflow (mid m : Int) (street g_count : List Int)
    (hm1 : 1 ≤ m) (hm2 : m ≤ INT_MAX) (h0 : 0 ≤ mid) (h1 : mid ≤ m - 1)
    (hb : ∀ i : Nat, i < 26 →
      0 ≤ street.getD i 0 ∧ street.getD i 0 ≤ g_count.getD i 0 ∧ g_count.getD i 0 ≤ INT_MAX) :
    wrap32 (m - mid) = m - mid ∧
      (∀ i : Nat, i < 26 →
        wrap64 (g_count.getD i 0 - street.getD i 0)
          = g_count.getD i 0 - street.getD i 0 ∧
        wrap64 (wrap32 (m - mid) * wrap64 (g_count.getD i 0 - street.getD i 0))
          = (m - mid) * (g_count.getD i 0 - street.getD i 0)) ∧
      validate mid m street g_count = validateExact mid m street g_count := by
  unfold INT_MAX at hm2 hb
  have h32 : wrap32 (m - mid) = m - mid := wrap32_eq _ (by omega) (by omega)
  have h64 : ∀ i : Nat, i < 26 →
      wrap64 (g_count.getD i 0 - street.getD i 0) = g_count.getD i 0 - street.getD i 0 ∧
      wrap64 ((m - mid) * (g_count.getD i 0 - street.getD i 0))
        = (m - mid) * (g_count.getD i 0 - street.getD i 0) := by
    intro i hi
    obtain ⟨b1, b2, b3⟩ := hb i hi
    have hr0 : 0 ≤ g_count.getD i 0 - street.getD i 0 := by omega
    have hr1 : g_count.getD i 0 - street.getD i 0 ≤ 2147483647 := by omega
    have hd0 : 0 ≤ m - mid := by omega
    have hd1 : m - mid ≤ 2147483647 := by omega
    have hp0 : 0 ≤ (m - mid) * (g_count.getD i 0 - street.getD i 0) :=
      mul_nonneg hd0 hr0
    have hp1 : (m - mid) * (g_count.getD i 0 - street.getD i 0)
        ≤ 2147483647 * 2147483647 := mul_le_mul hd1 hr1 hr0 (by decide)
    exact ⟨wrap64_eq _ (by omega) (by omega), wrap64_eq _ (by omega) (by omega)⟩
  refine ⟨h32, ?_, ?_⟩
  · intro i hi
    obtain ⟨e1, e2⟩ := h64 i hi
    rw [h32, e1, e2]
    exact ⟨rfl, rfl⟩
  · unfold validate validateExact
    exact validateLoop_eq_exact mid m street g_count h32 h64 26 0 (by decide)

theorem validate_no_overflow_witness :
    wrap32 (2147483647 - 0) = 2147483647 - 0 ∧
      (∀ i : Nat, i < 26 →
        wrap64 ((List.replicate 26 (2147483647 : Int)).getD i 0 - zeros26.getD i 0)
          = (List.replicate 26 (2147483647 : Int)).getD i 0 - zeros26.getD i 0 ∧
        wrap64 (wrap32 (2147483647 - 0)
            * wrap64 ((List.replicate 26 (2147483647 : Int)).getD i 0 - zeros26.getD i 0))
          = (2147483647 - 0)
            * ((List.replicate 26 (2147483647 : Int)).getD i 0 - zeros26.getD i 0)) ∧
      validate 0 2147483647 zeros26 (List.replicate 26 2147483647)
        = validateExact 0 2147483647 zeros26 (List.replicate 26 2147483647) :=
  validate_no_overflow 0 2147483647 zeros26 (List.replicate 26 2147483647)
    (by decide) (by decide) (by decide) (by decide) (by decide)

end A2181

end Telegraph

/-! ## Reading, printing and the answer of a row -/

namespace Telegraph

theorem readInt_range (cs r : List Char) (v : Int) (h : readInt cs = some (v, r)) :
    INT_MIN ≤ v ∧ v ≤ INT_MAX := by
  simp only [readInt] at h
  split_ifs at h
  all_goals simp only [Option.some.injEq, Prod.mk.injEq, reduceCtorEq] at h
  all_goals (rw [← h.1]; assumption)

namespace A2181

theorem getD_set (v : List Int) (k : Nat) (x : Int) (j : Nat) (hk : k < v.length) :
    (v.set k x).getD j 0 = if j = k then x else v.getD j 0 := by
  simp only [List.getD_eq_getElem?_getD, List.getElem?_set]
  by_cases h : k = j
  · subst h; simp [hk]
  · have h2 : ¬ j = k := fun e => h e.symm
    simp [h, h2]

theorem zeros26_getD (j : Nat) : zeros26.getD j 0 = 0 := by
  simp only [zeros26, List.getD_eq_getElem?_getD, List.getElem?_replicate]
  split <;> rfl

theorem zeros26_length : zeros26.length = 26 := by
  simp [zeros26]

theorem bump_spec (v v2 : List Int) (idx : Int) (h : bump v idx = some v2) :
    0 ≤ idx ∧ idx < (v.length : Int) ∧ v2.length = v.length ∧
      ∀ j : Nat, v2.getD j 0 = if j = idx.toNat then v.getD j 0 + 1 else v.getD j 0 := by
  unfold bump at h
  by_cases hc : 0 ≤ idx ∧ idx < (v.length : Int)
  · simp only [hc, and_self, if_true, Option.some.injEq] at h
    subst h
    refine ⟨hc.1, hc.2, List.length_set _ _ _, ?_⟩
    intro j
    rw [getD_set v idx.toNat _ j (by omega)]
    by_cases hj : j = idx.toNat
    · simp [hj]
    · simp [hj]
  · simp only [hc, if_false] at h
    exact absurd h (by simp)

theorem bump_isSome (v : List Int) (idx : Int) (h0 : 0 ≤ idx) (h1 : idx < (v.length : Int)) :
    ∃ v2 : List Int, bump v idx = some v2 := by
  unfold bump
  exact ⟨_, if_pos ⟨h0, h1⟩⟩

theorem countChars_spec (w : List Char) :
    ∀ g row g2 row2 : List Int, countChars w g row = some (g2, row2) →
      g2.length = g.length ∧ row2.length = row.length ∧
        ∀ j : Nat, row.getD j 0 ≤ row2.getD j 0 ∧
          g2.getD j 0 - row2.getD j 0 = g.getD j 0 - row.getD j 0 := by
  induction w with
  | nil =>
    intro g row g2 row2 h
    simp only [countChars, Option.some.injEq, Prod.mk.injEq] at h
    obtain ⟨rfl, rfl⟩ := h
    exact ⟨rfl, rfl, fun j => ⟨le_refl _, rfl⟩⟩
  | cons c cs ih =>
    intro g row g2 row2 h
    simp only [countChars] at h
    cases hg : bump g (letterIndex c) with
    | none => simp [hg] at h
    | some ga =>
      simp only [hg] at h
      cases hr : bump row (letterIndex c) with
      | none => simp [hr] at h
      | some ra =>
        simp only [hr] at h
        obtain ⟨_, _, hgl, hgv⟩ := bump_spec _ _ _ hg
        obtain ⟨_, _, hrl, hrv⟩ := bump_spec _ _ _ hr
        obtain ⟨h1, h2, h3⟩ := ih ga ra g2 row2 h
        refine ⟨by omega, by omega, ?_⟩
        intro j
        obtain ⟨h4, h5⟩ := h3 j
        have h6 := hgv j
        have h7 := hrv j
        by_cases hj : j = (letterIndex c).toNat
        · simp only [hj, if_true] at h6 h7
          rw [hj] at h4 h5 ⊢
          omega
        · simp only [hj, if_false] at h6 h7
          omega

theorem countChars_isSome (w : List Char) :
    ∀ g row : List Int, (∀ c ∈ w, isUpperLetter c) → g.length = 26 → row.length = 26 →
      ∃ p : List Int × List Int, countChars w g row = some p := by
  induction w with
  | nil =>
    intro g row _ _ _
    exact ⟨(g, row), rfl⟩
  | cons c cs ih =>
    intro g row hup hg hr
    have hc : isUpperLetter c := hup c (List.mem_cons_self c cs)
    have hA : ('A').toNat = 65 := by decide
    have hZ : ('Z').toNat = 90 := by decide
    unfold isUpperLetter at hc
    rw [hA, hZ] at hc
    have hi : letterIndex c = (c.toNat : Int) - 65 := by
      unfold letterIndex
      rw [hA]
      rfl
    obtain ⟨ga, hga⟩ := bump_isSome g (letterIndex c)
      (by rw [hi]; omega) (by rw [hi, hg]; omega)
    obtain ⟨ra, hra⟩ := bump_isSome row (letterIndex c)
      (by rw [hi]; omega) (by rw [hi, hr]; omega)
    simp only [countChars, hga, hra]
    exact ih ga ra (fun d hd => hup d (List.mem_cons_of_mem c hd))
      (by rw [(bump_spec _ _ _ hga).2.2.1, hg]) (by rw [(bump_spec _ _ _ hra).2.2.1, hr])

/-- What the reading loop establishes: 26 entries everywhere, and every row count is
between 0 and the global count of its letter. -/
theorem readRows_spec (k : Nat) :
    ∀ (cs : List Char) (g g3 : List Int) (rows : List (List Int)),
      g.length = 26 → (∀ j : Nat, 0 ≤ g.getD j 0) → readRows k cs g = some (g3, rows) →
      g3.length = 26 ∧ (∀ j : Nat, g.getD j 0 ≤ g3.getD j 0) ∧ rows.length = k ∧
        ∀ row ∈ rows, row.length = 26 ∧
          ∀ j : Nat, 0 ≤ row.getD j 0 ∧ row.getD j 0 ≤ g3.getD j 0 := by
  induction k with
  | zero =>
    intro cs g g3 rows hg h0 h
    simp only [readRows, Option.some.injEq, Prod.mk.injEq] at h
    obtain ⟨rfl, rfl⟩ := h
    exact ⟨hg, fun j => le_refl _, rfl, fun row hrow => absurd hrow (List.not_mem_nil row)⟩
  | succ k ih =>
    intro cs g g3 rows hg h0 h
    simp only [readRows] at h
    cases hc : countChars (readWord cs).1 g zeros26 with
    | none => simp [hc] at h
    | some p =>
      obtain ⟨g2, row⟩ := p
      simp only [hc] at h
      cases hr : readRows k (readWord cs).2 g2 with
      | none => simp [hr] at h
      | some q =>
        obtain ⟨g4, rows2⟩ := q
        simp only [hr, Option.some.injEq, Prod.mk.injEq] at h
        obtain ⟨rfl, rfl⟩ := h
        obtain ⟨hl1, hl2, hv⟩ := countChars_spec _ _ _ _ _ hc
        have hg2 : ∀ j : Nat, 0 ≤ row.getD j 0 ∧ row.getD j 0 ≤ g2.getD j 0 ∧
            g.getD j 0 ≤ g2.getD j 0 := by
          intro j
          obtain ⟨h1, h2⟩ := hv j
          have h3 := zeros26_getD j
          have h4 := h0 j
          omega
        obtain ⟨i1, i2, i3, i4⟩ := ih (readWord cs).2 g2 g4 rows2 (by omega)
          (fun j => le_trans (h0 j) (hg2 j).2.2) hr
        refine ⟨i1, fun j => le_trans (hg2 j).2.2 (i2 j), by simp [i3], ?_⟩
        intro r hr2
        rcases List.mem_cons.mp hr2 with rfl | hmem
        · exact ⟨by rw [hl2, zeros26_length],
            fun j => ⟨(hg2 j).1, le_trans (hg2 j).2.1 (i2 j)⟩⟩
        · exact i4 r hmem

theorem readRows_isSome (k : Nat) :
    ∀ (cs : List Char) (g : List Int), g.length = 26 →
      (∀ w ∈ rowWords k cs, ∀ c ∈ w, isUpperLetter c) →
      ∃ p : List Int × List (List Int), readRows k cs g = some p := by
  induction k with
  | zero =>
    intro cs g _ _
    exact ⟨(g, []), rfl⟩
  | succ k ih =>
    intro cs g hg hup
    obtain ⟨⟨g2, row⟩, hc⟩ := countChars_isSome (readWord cs).1 g zeros26
      (hup _ (by simp [rowWords])) hg zeros26_length
    obtain ⟨hl1, _, _⟩ := countChars_spec _ _ _ _ _ hc
    obtain ⟨⟨g3, rows⟩, hr⟩ := ih (readWord cs).2 g2 (by omega)
      (fun w hw => hup w (by simp [rowWords, hw]))
    exact ⟨(g3, row :: rows), by simp only [readRows, hc, hr]⟩

theorem forall2_length {α β : Type} (R : α → β → Prop) (xs : List α) (ys : List β)
    (h : List.Forall₂ R xs ys) : xs.length = ys.length := by
  induction h with
  | nil => rfl
  | cons _ _ ih => simp [ih]

theorem letter_toNat : ∀ j : Nat, j < 26 → (letter j).toNat = 65 + j := by
  decide

theorem letterIndex_eq_iff (c : Char) (j : Nat) (hj : j < 26) :
    letterIndex c = (j : Int) ↔ c = letter j := by
  have hA : ('A').toNat = 65 := by decide
  constructor
  · intro h
    unfold letterIndex at h
    rw [hA] at h
    have hc : c.toNat = 65 + j := by omega
    unfold letter
    rw [hA, ← hc, Char.ofNat_toNat]
  · intro h
    unfold letterIndex
    rw [h, letter_toNat j hj, hA]
    push_cast
    omega

theorem sum_set_getD (v : List Int) :
    ∀ (k : Nat) (x : Int), k < v.length → (v.set k x).sum = v.sum - v.getD k 0 + x := by
  induction v with
  | nil =>
    intro k x hk
    simp at hk
  | cons h t ih =>
    intro k x hk
    cases k with
    | zero =>
      simp only [List.set_cons_zero, List.sum_cons, List.getD_cons_zero]
      omega
    | succ k =>
      simp only [List.set_cons_succ, List.sum_cons, List.getD_cons_succ]
      rw [ih k x (by simpa using hk)]
      omega

theorem bump_sum (v v2 : List Int) (idx : Int) (h : bump v idx = some v2) :
    v2.sum = v.sum + 1 := by
  unfold bump at h
  by_cases hc : 0 ≤ idx ∧ idx < (v.length : Int)
  · simp only [hc, and_self, if_true, Option.some.injEq] at h
    rw [← h, sum_set_getD v idx.toNat _ (by omega)]
    omega
  · simp only [hc, if_false] at h
    exact absurd h (by simp)

/-- The counting loop of one row adds, for every category, the number of occurrences of
its letter to both vectors, and adds the length of the row to the total of each. -/
theorem countChars_counts (w : List Char) :
    ∀ g row g2 row2 : List Int, countChars w g row = some (g2, row2) →
      row2.sum = row.sum + w.length ∧ g2.sum = g.sum + w.length ∧
        ∀ j : Nat, j < 26 →
          row2.getD j 0 = row.getD j 0 + (w.count (letter j) : Int) ∧
          g2.getD j 0 = g.getD j 0 + (w.count (letter j) : Int) := by
  induction w with
  | nil =>
    intro g row g2 row2 h
    simp only [countChars, Option.some.injEq, Prod.mk.injEq] at h
    obtain ⟨rfl, rfl⟩ := h
    simp
  | cons c cs ih =>
    intro g row g2 row2 h
    simp only [countChars] at h
    cases hg : bump g (letterIndex c) with
    | none => simp [hg] at h
    | some ga =>
      simp only [hg] at h
      cases hr : bump row (letterIndex c) with
      | none => simp [hr] at h
      | some ra =>
        simp only [hr] at h
        obtain ⟨hi0, _, _, hgv⟩ := bump_spec _ _ _ hg
        obtain ⟨_, _, _, hrv⟩ := bump_spec _ _ _ hr
        obtain ⟨s1, s2, hc⟩ := ih ga ra g2 row2 h
        have e1 := bump_sum _ _ _ hg
        have e2 := bump_sum _ _ _ hr
        refine ⟨by rw [s1, e2, List.length_cons]; push_cast; omega,
          by rw [s2, e1, List.length_cons]; push_cast; omega, ?_⟩
        intro j hj
        obtain ⟨c1, c2⟩ := hc j hj
        have h6 := hgv j
        have h7 := hrv j
        have hcount : (List.count (letter j) (c :: cs) : Int)
            = (List.count (letter j) cs : Int) + if j = (letterIndex c).toNat then 1 else 0 := by
          rw [List.count_cons]
          have hiff : ((c == letter j) = true) ↔ j = (letterIndex c).toNat := by
            rw [beq_iff_eq, ← letterIndex_eq_iff c j hj]
            omega
          by_cases hj2 : j = (letterIndex c).toNat
          · rw [if_pos (hiff.mpr hj2), if_pos hj2]
            push_cast
            rfl
          · rw [if_neg (fun hh => hj2 (hiff.mp hh)), if_neg hj2]
            push_cast
            rfl
        rw [hcount, c1, c2, h6, h7]
        by_cases hj2 : j = (letterIndex c).toNat
        · simp only [hj2, if_true]
          omega
        · simp only [hj2, if_false]
          omega

theorem getD_le_sum (l : List Int) :
    (∀ j : Nat, 0 ≤ l.getD j 0) → 0 ≤ l.sum ∧ ∀ j : Nat, l.getD j 0 ≤ l.sum := by
  induction l with
  | nil =>
    intro _
    exact ⟨le_refl 0, fun j => by simp⟩
  | cons x t ih =>
    intro h
    have hx : 0 ≤ x := by simpa using h 0
    obtain ⟨i1, i2⟩ := ih (fun j => by simpa using h (j + 1))
    refine ⟨by rw [List.sum_cons]; omega, ?_⟩
    intro j
    rw [List.sum_cons]
    cases j with
    | zero =>
      simp only [List.getD_cons_zero]
      omega
    | succ j =>
      simp only [List.getD_cons_succ]
      have := i2 j
      omega

theorem readRows_sum (k : Nat) :
    ∀ (cs : List Char) (g g3 : List Int) (rows : List (List Int)),
      readRows k cs g = some (g3, rows) →
      g3.sum = g.sum + (((rowWords k cs).map List.length).sum : Nat) := by
  induction k with
  | zero =>
    intro cs g g3 rows h
    simp only [readRows, Option.some.injEq, Prod.mk.injEq] at h
    rw [← h.1]
    simp [rowWords]
  | succ k ih =>
    intro cs g g3 rows h
    simp only [readRows] at h
    cases hc : countChars (readWord cs).1 g zeros26 with
    | none => simp [hc] at h
    | some p =>
      obtain ⟨g2, row⟩ := p
      simp only [hc] at h
      cases hr : readRows k (readWord cs).2 g2 with
      | none => simp [hr] at h
      | some q =>
        obtain ⟨g4, rows2⟩ := q
        simp only [hr, Option.some.injEq, Prod.mk.injEq] at h
        obtain ⟨rfl, rfl⟩ := h
        obtain ⟨_, s2, _⟩ := countChars_counts _ _ _ _ _ hc
        rw [ih (readWord cs).2 g2 g4 rows2 hr, s2]
        simp only [rowWords, List.map_cons, List.sum_cons]
        push_cast
        omega

/-- On an input whose rows hold at most `2^31 - 1` letters in all, the counts built by
the reading loop are 32-bit values with `0 <= row <= global`. -/
theorem readRows_bounds (k : Nat) (cs : List Char) (g_count : List Int)
    (c_counts : List (List Int)) (hrows : readRows k cs zeros26 = some (g_count, c_counts))
    (hlen : ((rowWords k cs).map List.length).sum ≤ 2147483647) :
    ∀ street ∈ c_counts, ∀ i : Nat,
      0 ≤ street.getD i 0 ∧ street.getD i 0 ≤ g_count.getD i 0 ∧
        g_count.getD i 0 ≤ INT_MAX := by
  obtain ⟨_, hge, _, hb⟩ := readRows_spec k cs zeros26 g_count c_counts
    zeros26_length (fun j => by rw [zeros26_getD]) hrows
  have hsum := readRows_sum k cs zeros26 g_count c_counts hrows
  have hz : zeros26.sum = 0 := by decide
  obtain ⟨_, hle⟩ := getD_le_sum g_count (fun j => by
    have := hge j
    rw [zeros26_getD] at this
    exact this)
  intro street hs i
  have h1 := (hb street hs).2 i
  have h2 := hle i
  refine ⟨h1.1, h1.2, ?_⟩
  unfold INT_MAX
  rw [hsum, hz] at h2
  omega

theorem append_newline_ne_empty (t : String) : t ++ "\n" ≠ "" := by
  intro h
  have hl := congrArg String.length h
  rw [String.length_append] at hl
  have h1 : ("\n" : String).length = 1 := by decide
  have h0 : ("" : String).length = 0 := by decide
  omega

theorem digitChar_isDigit : ∀ k : Nat, k < 10 → (Nat.digitChar k).isDigit = true := by
  decide

theorem toDigitsCore_digits (fuel : Nat) :
    ∀ (n : Nat) (ds : List Char), (∀ c ∈ ds, c.isDigit = true) →
      ∀ c ∈ Nat.toDigitsCore 10 fuel n ds, c.isDigit = true := by
  induction fuel with
  | zero =>
    intro n ds hds
    simpa [Nat.toDigitsCore] using hds
  | succ fuel ih =>
    intro n ds hds
    have hd : (Nat.digitChar (n % 10)).isDigit = true :=
      digitChar_isDigit _ (Nat.mod_lt _ (by decide))
    have hcons : ∀ c ∈ Nat.digitChar (n % 10) :: ds, c.isDigit = true := by
      intro c hc
      rcases List.mem_cons.mp hc with rfl | h
      · exact hd
      · exact hds c h
    unfold Nat.toDigitsCore
    by_cases h0 : n / 10 = 0
    · simpa only [h0, if_true] using hcons
    · simp only [h0, if_false]
      exact ih _ _ hcons

theorem toDigitsCore_ne_nil (fuel : Nat) :
    ∀ (n : Nat) (ds : List Char), (fuel = 0 → ds ≠ []) →
      Nat.toDigitsCore 10 fuel n ds ≠ [] := by
  induction fuel with
  | zero =>
    intro n ds h
    simpa [Nat.toDigitsCore] using h rfl
  | succ fuel ih =>
    intro n ds _
    unfold Nat.toDigitsCore
    by_cases h0 : n / 10 = 0
    · simp [h0]
    · simp only [h0, if_false]
      exact ih _ _ (fun _ => List.cons_ne_nil _ _)

theorem nat_toString_digits (n : Nat) : ∀ c ∈ (toString n).data, c.isDigit = true := by
  show ∀ c ∈ (Nat.repr n).data, c.isDigit = true
  unfold Nat.repr Nat.toDigits
  exact toDigitsCore_digits _ _ _ (fun c hc => absurd hc (List.not_mem_nil c))

theorem nat_toString_ne_nil (n : Nat) : (toString n).data ≠ [] := by
  show (Nat.repr n).data ≠ []
  unfold Nat.repr Nat.toDigits
  exact toDigitsCore_ne_nil _ _ _ (fun h => absurd h (Nat.succ_ne_zero n))

/-- The text written for an `int` is a numeral: it is not empty and consists of decimal
digits and possibly a minus sign. -/
theorem int_toString_numeral (a : Int) :
    (toString a).data ≠ [] ∧ ∀ c ∈ (toString a).data, c = '-' ∨ c.isDigit = true := by
  cases a with
  | ofNat k =>
    exact ⟨nat_toString_ne_nil k, fun c hc => Or.inr (nat_toString_digits k c hc)⟩
  | negSucc k =>
    have hs : (toString (Int.negSucc k)) = "-" ++ toString (k + 1) := rfl
    rw [hs, String.data_append]
    refine ⟨by simp, ?_⟩
    intro c hc
    rcases List.mem_append.mp hc with h | h
    · left; simpa using h
    · exact Or.inr (nat_toString_digits _ c h)

theorem intercalate_go_eq (l : List String) :
    ∀ acc : String, String.intercalate.go acc " " l
      = acc ++ String.join (l.map (fun s => " " ++ s)) := by
  induction l with
  | nil =>
    intro acc
    simp [String.intercalate.go, String.join]
  | cons a l ih =>
    intro acc
    rw [String.intercalate.go, ih, List.map_cons, string_join_cons]
    simp only [String.append_assoc]

theorem joinSp_cons_eq (l : List String) :
    ∀ a : String, joinSp (a :: l) = a ++ String.join (l.map (fun s => " " ++ s)) := by
  induction l with
  | nil =>
    intro a
    simp [joinSp, String.join]
  | cons b l ih =>
    intro a
    rw [joinSp, ih b, List.map_cons, string_join_cons]
    simp only [String.append_assoc]

theorem joinSp_eq_intercalate (l : List String) : joinSp l = " ".intercalate l := by
  cases l with
  | nil => rfl
  | cons a l =>
    rw [joinSp_cons_eq, String.intercalate, intercalate_go_eq]

theorem int_toString_plain (a : Int) :
    (toString a).data ≠ [] ∧ ∀ c ∈ (toString a).data, c ≠ ' ' ∧ c ≠ '\n' := by
  obtain ⟨h1, h2⟩ := int_toString_numeral a
  refine ⟨h1, ?_⟩
  intro c hc
  rcases h2 c hc with rfl | hd
  · exact ⟨by decide, by decide⟩
  · constructor
    · rintro rfl
      exact absurd hd (by decide)
    · rintro rfl
      exact absurd hd (by decide)

/-- Shape of a line of pieces that hold no space and no newline: the spaces are the
separators, there is no newline, and the line does not end with a space. -/
theorem joinSp_shape (ps : List String) :
    (∀ p ∈ ps, p.data ≠ [] ∧ ∀ c ∈ p.data, c ≠ ' ' ∧ c ≠ '\n') →
      (joinSp ps).data.count ' ' = ps.length - 1 ∧
      (joinSp ps).data.count '\n' = 0 ∧
      (ps ≠ [] → (joinSp ps).data ≠ []) ∧
      (joinSp ps).data.getLast? ≠ some ' ' := by
  induction ps with
  | nil =>
    intro _
    exact ⟨rfl, rfl, fun h => absurd rfl h, by decide⟩
  | cons a l ih =>
    intro h
    obtain ⟨ha1, ha2⟩ := h a (List.mem_cons_self a l)
    have hsp : a.data.count ' ' = 0 :=
      List.count_eq_zero.mpr (fun hm => (ha2 ' ' hm).1 rfl)
    have hnl : a.data.count '\n' = 0 :=
      List.count_eq_zero.mpr (fun hm => (ha2 '\n' hm).2 rfl)
    cases l with
    | nil =>
      refine ⟨by simpa [joinSp] using hsp, by simpa [joinSp] using hnl,
        fun _ => by simpa [joinSp] using ha1, ?_⟩
      intro hl
      have hm : ' ' ∈ (joinSp [a]).data := List.mem_of_getLast?_eq_some hl
      exact (ha2 ' ' (by simpa [joinSp] using hm)).1 rfl
    | cons b l =>
      obtain ⟨i1, i2, i3, i4⟩ := ih (fun p hp => h p (List.mem_cons_of_mem a hp))
      have hne : (joinSp (b :: l)).data ≠ [] := i3 (List.cons_ne_nil b l)
      have hd : (joinSp (a :: b :: l)).data
          = a.data ++ (' ' :: (joinSp (b :: l)).data) := by
        rw [joinSp, String.data_append, String.data_append]
        simp
      rw [hd]
      refine ⟨?_, ?_, fun _ => by simp, ?_⟩
      · rw [List.count_append, hsp, List.count_cons_self, i1]
        simp
      · rw [List.count_append, hnl, List.count_cons_of_ne (by decide), i2]
      · rw [List.getLast?_append_of_ne_nil _ (List.cons_ne_nil _ _)]
        obtain ⟨x, xs, hx⟩ : ∃ x xs, (joinSp (b :: l)).data = x :: xs := by
          cases hj : (joinSp (b :: l)).data with
          | nil => exact absurd hj hne
          | cons x xs => exact ⟨x, xs, rfl⟩
        rw [hx, List.getLast?_cons_cons, ← hx]
        exact i4

theorem ceilDiv_le_iff (a b t : Int) (hb : 0 < b) : ceilDiv a b ≤ t ↔ a ≤ t * b := by
  unfold ceilDiv
  rw [← Int.lt_add_one_iff, Int.ediv_lt_iff_lt_mul hb]
  constructor
  · intro h; nlinarith
  · intro h; nlinarith

theorem maxCeil_nonneg (street g_count : List Int) (k : Nat) :
    0 ≤ maxCeil street g_count k := by
  induction k with
  | zero => exact le_refl 0
  | succ k ih =>
    unfold maxCeil
    by_cases hp : 0 < street.getD k 0
    · simp only [hp, if_true]
      exact le_trans ih (le_max_left _ _)
    · simp only [hp, if_false]
      exact ih

theorem maxCeil_le_iff (street g_count : List Int) (t : Int) (k : Nat) :
    maxCeil street g_count k ≤ t ↔
      0 ≤ t ∧ ∀ j : Nat, j < k → 0 < street.getD j 0 →
        ceilDiv (street.getD j 0) (g_count.getD j 0 - street.getD j 0) ≤ t := by
  induction k with
  | zero =>
    simp only [maxCeil]
    constructor
    · intro h
      exact ⟨h, fun j hj => absurd hj (Nat.not_lt_zero j)⟩
    · intro h
      exact h.1
  | succ k ih =>
    unfold maxCeil
    by_cases hp : 0 < street.getD k 0
    · simp only [hp, if_true, max_le_iff, ih]
      constructor
      · rintro ⟨⟨h0, h1⟩, h2⟩
        refine ⟨h0, ?_⟩
        intro j hj hpj
        rcases Nat.lt_succ_iff_lt_or_eq.mp hj with hlt | rfl
        · exact h1 j hlt hpj
        · exact h2
      · rintro ⟨h0, h1⟩
        exact ⟨⟨h0, fun j hj hpj => h1 j (Nat.lt_succ_of_lt hj) hpj⟩,
          h1 k (Nat.lt_succ_self k) hp⟩
    · simp only [hp, if_false, ih]
      constructor
      · rintro ⟨h0, h1⟩
        refine ⟨h0, ?_⟩
        intro j hj hpj
        rcases Nat.lt_succ_iff_lt_or_eq.mp hj with hlt | rfl
        · exact h1 j hlt hpj
        · exact absurd hpj hp
      · rintro ⟨h0, h1⟩
        exact ⟨h0, fun j hj hpj => h1 j (Nat.lt_succ_of_lt hj) hpj⟩

/-- The text of the printing loop is the list of the rows' answers, separated by single
spaces, when the search of every row returns. -/
theorem printLoop_eq (n m : Int) (g_count : List Int) (Q : List Int → Prop)
    (rows : List (List Int)) :
    ∀ i : Int, i + rows.length = n →
      (∀ street ∈ rows, Q street ∧ ∃ a : Int, search m street g_count = some a) →
      ∃ answers : List Int,
        List.Forall₂ (fun street a => Q street ∧ search m street g_count = some a)
          rows answers ∧
        printLoop n m g_count i rows = some (joinSp (answers.map toString)) := by
  induction rows with
  | nil =>
    intro i _ _
    exact ⟨[], List.Forall₂.nil, rfl⟩
  | cons street rest ih =>
    intro i hi hQ
    obtain ⟨hq, a, ha⟩ := hQ street (List.mem_cons_self street rest)
    obtain ⟨answers, hall, hp⟩ := ih (i + 1)
      (by rw [List.length_cons] at hi; push_cast at hi; omega)
      (fun r hr => hQ r (List.mem_cons_of_mem street hr))
    refine ⟨a :: answers, List.Forall₂.cons ⟨hq, ha⟩ hall, ?_⟩
    simp only [printLoop, ha, hp]
    cases hall with
    | nil =>
      have hin : i = n - 1 := by
        simp only [List.length_cons, List.length_nil] at hi
        push_cast at hi
        omega
      simp only [hin, if_true, List.map_nil, List.map_cons, joinSp, String.append_empty]
    | cons h1 h2 =>
      have hin : ¬ i = n - 1 := by
        simp only [List.length_cons] at hi
        push_cast at hi
        omega
      simp only [hin, if_false, List.map_cons, joinSp]

/-- For `INT_MIN < m <= INT_MAX` the search of a row returns, whatever the arrays are,
and its result is `-1` or a value of `[0, m - 1]` at which `validate` returned true. -/
theorem search_sound (m : Int) (street g_count : List Int)
    (hm1 : INT_MIN < m) (hm2 : m ≤ INT_MAX) :
    ∃ a : Int, search m street g_count = some a ∧
      (a = -1 ∨ (0 ≤ a ∧ a ≤ m - 1 ∧ validate a m street g_count = true)) := by
  unfold INT_MIN at hm1
  unfold INT_MAX at hm2
  rw [search_eq_with, wrap32_eq (m - 1) (by omega) (by omega)]
  exact searchLoopWith_sound (fun mid => validate mid m street g_count) (m - 1) (by omega) 64
    0 (m - 1) (-1) (by norm_num; omega) (le_refl 0) (le_refl _) (Or.inl rfl)

/-- The answer of a row whose feasibility is downward closed on `[0, m - 1]`, for
`INT_MIN < m <= INT_MAX`. -/
theorem search_spec (m : Int) (street g_count : List Int)
    (hm1 : INT_MIN < m) (hm2 : m ≤ INT_MAX)
    (hmono : ∀ x y : Int, 0 ≤ x → x ≤ y → y ≤ m - 1 →
      validate y m street g_count = true → validate x m street g_count = true) :
    ∃ a : Int, search m street g_count = some a ∧
      (a = -1 ↔ NoFeasible m street g_count) ∧
      (a ≠ -1 → IsMaxFeasible m street g_count a) := by
  unfold INT_MIN at hm1
  unfold INT_MAX at hm2
  rw [search_eq_with, wrap32_eq (m - 1) (by omega) (by omega)]
  have hlow0 : (0 : Int) ≤ m - 1 + 1 ∨ m - 1 + 1 < 0 := by omega
  rcases hlow0 with hm | hm
  · obtain ⟨a, ha, h1, h2, h3, h4⟩ :=
      searchLoopWith_spec (fun mid => validate mid m street g_count) (m - 1) (by omega)
        hmono 64 0 (m - 1) (-1) (by norm_num; omega)
        (le_refl 0) hm (le_refl _) (by omega) (fun h => absurd h (lt_irrefl 0))
        (fun x hx hxt => absurd hxt (not_le.mpr hx))
    refine ⟨a, ha, ?_, ?_⟩
    · constructor
      · intro hneg mid hmid0 hmidt
        exact h4 mid (by omega) hmidt
      · intro hno
        by_contra hne
        have ha0 : 0 ≤ a := by omega
        have := hno a ha0 h2
        rw [h3 ha0] at this
        exact absurd this (by decide)
    · intro hne
      have ha0 : 0 ≤ a := by omega
      refine ⟨ha0, h2, h3 ha0, ?_⟩
      intro mid hmid0 hmidt hv
      by_contra hgt
      have := h4 mid (by omega) hmidt
      rw [hv] at this
      exact absurd this (by decide)
  · have hn : ¬ (0 : Int) ≤ m - 1 := by omega
    refine ⟨-1, searchLoopWith_gt _ 64 0 (m - 1) (-1) hn, ?_, ?_⟩
    · constructor
      · intro _ mid hmid0 hmidt
        omega
      · intro _; rfl
    · intro hne
      exact absurd rfl hne

/-- The answer when feasibility on `[0, m - 1]` is a threshold test `mid <= T`. -/
theorem search_of_threshold (m T : Int) (street g_count : List Int)
    (hm1 : INT_MIN < m) (hm2 : m ≤ INT_MAX) (hT : T ≤ m - 1)
    (h : ∀ mid : Int, 0 ≤ mid → mid ≤ m - 1 →
      (validate mid m street g_count = true ↔ mid ≤ T)) :
    search m street g_count = some (if T < 0 then -1 else T) := by
  obtain ⟨a, ha, h1, h2⟩ := search_spec m street g_count hm1 hm2 (fun x y hx hxy hy hv =>
    (h x hx (by omega)).mpr (le_trans hxy ((h y (by omega) hy).mp hv)))
  rw [ha]
  by_cases hneg : a = -1
  · have hno := h1.mp hneg
    have hT0 : T < 0 := by
      by_contra hge
      have hv := (h T (by omega) hT).mpr (le_refl T)
      rw [hno T (by omega) hT] at hv
      exact absurd hv (by decide)
    rw [if_pos hT0, hneg]
  · obtain ⟨a0, a1, a2, a3⟩ := h2 hneg
    have haT : a ≤ T := (h a a0 a1).mp a2
    have hTa : T ≤ a := a3 T (by omega) hT ((h T (by omega) hT).mpr (le_refl T))
    rw [if_neg (by omega), le_antisymm haT hTa]

/-- A present category with nothing left in the other rows makes the answer `-1`, for
every `m`: `validate` is false at every candidate, so nothing wraps on the way. -/
theorem search_of_exhausted (m : Int) (street g_count : List Int) (i : Nat)
    (hi : i < 26) (hne : street.getD i 0 ≠ 0) (heq : g_count.getD i 0 = street.getD i 0) :
    search m street g_count = some (-1) := by
  rw [search_eq_with]
  have hr := wrap32_range (m - 1)
  exact searchLoopWith_all_false _
    (fun x => validate_of_exhausted x m street g_count i hi hne heq) 64 0 _ (-1)
    (by norm_num; omega) (le_refl 0) hr.2

end A2181

end Telegraph

/-! ## The program `2181A.cpp` -/

namespace Telegraph

namespace A2181

/-- C1 (as stated, refuted). With `m = -2147483648` the bound `high = m - 1` is computed
in `int` and wraps to `2147483647`, although the range `[0, m - 1]` holds no candidate.
On the input `2 -2147483648` with the rows `A` and `A` the search loop of the first row
never returns, so no value is printed at all; with the rows `AAB` and `ABB` the program
prints `2147483646` for both rows instead of `-1`. -/
theorem main_fails_at_int_min :
    readInt "2 -2147483648
A
A
".toList = some (2, " -2147483648
A
A
".toList) ∧
      readInt " -2147483648
A
A
".toList = some (-2147483648, "
A
A
".toList) ∧
      main "2 -2147483648
A
A
".toList = Outcome.unfinished ∧
      (¬ ∃ (fuel : Nat) (a : Int),
        searchLoop (-2147483648) (1 :: List.replicate 25 0) (2 :: List.replicate 25 0)
          fuel 0 (wrap32 (-2147483648 - 1)) (-1) = some a) ∧
      main "2 -2147483648
AAB
ABB
".toList
        = Outcome.exited 0 "2147483646 2147483646
" ∧
      ¬ ∃ mid : Int, 0 ≤ mid ∧ mid ≤ -2147483648 - 1 := by
  refine ⟨by decide, by decide, by decide, ?_, by decide, ?_⟩
  · rintro ⟨fuel, a, h⟩
    have hnone : search (-2147483648) (1 :: List.replicate 25 0) (2 :: List.replicate 25 0)
        = none := by decide
    rw [(search_eq_none_iff _ _ _).mp hnone fuel] at h
    exact absurd h (by simp)
  · rintro ⟨mid, h0, h1⟩
    omega

/-- C1 (amended). For an input with header `n m` (`n` not negative, `m` different from
`-2^31`, the one `int` whose `m - 1` wraps) whose `n` row strings consist of uppercase
letters, at most `2^31 - 1` in all, the program returns with status 0 after writing the
answers of the rows in order, and the answer written for each row is the largest `mid` in
`[0, m - 1]` for which `validate` holds with the row's counts and the global counts built
by the reading loop; it is `-1` exactly when no `mid` of that range is feasible. -/
theorem main_prints_max_feasible (inp r1 r2 : List Char) (n m : Int)
    (h1 : readInt inp = some (n, r1)) (h2 : readInt r1 = some (m, r2)) (hn : 0 ≤ n)
    (hm : INT_MIN < m)
    (hup : ∀ w ∈ rowWords n.toNat r2, ∀ c ∈ w, isUpperLetter c)
    (hlen : ((rowWords n.toNat r2).map List.length).sum ≤ 2147483647) :
    ∃ (g_count : List Int) (c_counts : List (List Int)) (answers : List Int),
      readRows n.toNat r2 zeros26 = some (g_count, c_counts) ∧
      c_counts.length = n.toNat ∧ answers.length = n.toNat ∧
      main inp = Outcome.exited 0 (joinSp (answers.map toString) ++ "\n") ∧
      List.Forall₂ (fun street a =>
          search m street g_count = some a ∧
          (a = -1 ↔ NoFeasible m street g_count) ∧
          (a ≠ -1 → IsMaxFeasible m street g_count a))
        c_counts answers := by
  have hm2 : m ≤ INT_MAX := (readInt_range r1 r2 m h2).2
  obtain ⟨⟨g_count, c_counts⟩, hrows⟩ := readRows_isSome n.toNat r2 zeros26 zeros26_length hup
  obtain ⟨_, _, hlen2, _⟩ := readRows_spec n.toNat r2 zeros26 g_count c_counts
    zeros26_length (fun j => by rw [zeros26_getD]) hrows
  have hb := readRows_bounds n.toNat r2 g_count c_counts hrows hlen
  have hmono : ∀ street ∈ c_counts, ∀ x y : Int, 0 ≤ x → x ≤ y → y ≤ m - 1 →
      validate y m street g_count = true → validate x m street g_count = true := by
    intro street hs x y hx hxy hy hv
    unfold INT_MIN at hm
    have hm3 := hm2
    unfold INT_MAX at hm3
    exact validate_mono m y x street g_count (fun i _ => hb street hs i) hxy
      (by unfold INT_MIN; omega) (by unfold INT_MAX; omega) hv
  obtain ⟨answers, hall, hp⟩ := printLoop_eq n m g_count
    (fun street => street ∈ c_counts)
    c_counts 0 (by rw [hlen2]; simp [Int.toNat_of_nonneg hn])
    (fun street hs => ⟨hs, by
      obtain ⟨a, ha, _⟩ := search_spec m street g_count hm hm2 (hmono street hs)
      exact ⟨a, ha⟩⟩)
  have hnn : ¬ n < 0 := by omega
  refine ⟨g_count, c_counts, answers, hrows, hlen2, ?_, ?_, ?_⟩
  · rw [← forall2_length _ _ _ hall, hlen2]
  · simp only [main, h1, h2, hnn, if_false, hrows, hp]
  · refine List.Forall₂.imp ?_ hall
    intro street a hsa
    obtain ⟨hQ, hs⟩ := hsa
    obtain ⟨a2, ha2, h3, h4⟩ := search_spec m street g_count hm hm2 (hmono street hQ)
    rw [hs, Option.some.injEq] at ha2
    subst ha2
    exact ⟨hs, h3, h4⟩

theorem main_prints_max_feasible_witness :
    ∃ (g_count : List Int) (c_counts : List (List Int)) (answers : List Int),
      readRows (3 : Int).toNat "\nAAB\nAB\nBCC\n".toList zeros26 = some (g_count, c_counts) ∧
      c_counts.length = (3 : Int).toNat ∧ answers.length = (3 : Int).toNat ∧
      main "3 5\nAAB\nAB\nBCC\n".toList
        = Outcome.exited 0 (joinSp (answers.map toString) ++ "\n") ∧
      List.Forall₂ (fun street a =>
          search 5 street g_count = some a ∧
          (a = -1 ↔ NoFeasible 5 street g_count) ∧
          (a ≠ -1 → IsMaxFeasible 5 street g_count a))
        c_counts answers :=
  main_prints_max_feasible "3 5\nAAB\nAB\nBCC\n".toList " 5\nAAB\nAB\nBCC\n".toList
    "\nAAB\nAB\nBCC\n".toList 3 5 (by decide) (by decide) (by decide) (by decide)
    (by
      intro w hw c hc
      have hw2 : w = "AAB".toList ∨ w = "AB".toList ∨ w = "BCC".toList := by
        have hrw : rowWords (3 : Int).toNat "\nAAB\nAB\nBCC\n".toList
            = ["AAB".toList, "AB".toList, "BCC".toList] := by decide
        rw [hrw] at hw
        simpa using hw
      have hc2 : c = 'A' ∨ c = 'B' ∨ c = 'C' := by
        rcases hw2 with rfl | rfl | rfl <;> simp at hc <;> tauto
      rcases hc2 with rfl | rfl | rfl <;> exact ⟨by decide, by decide⟩)
    (by decide)

/-- C3 (as stated, refuted). With the counts built from the two rows `A` and `A` and
`m = 2147483647`, `validate` holds at `mid = 0` and fails at the smaller `mid' = -1`,
where `m - mid'` does not fit 32 bits and wraps to a negative value. -/
theorem validate_not_monotone_when_wrapping :
    readRows 2 "A A".toList zeros26
        = some (2 :: List.replicate 25 0,
            [1 :: List.replicate 25 0, 1 :: List.replicate 25 0]) ∧
      validate 0 2147483647 (1 :: List.replicate 25 0) (2 :: List.replicate 25 0) = true ∧
      validate (-1) 2147483647 (1 :: List.replicate 25 0) (2 :: List.replicate 25 0) = false ∧
      (-1 : Int) < 0 := by
  decide

/-- C3 (amended). With the counts that the reading loop builds (global counts within the
`int` range), feasibility is monotone in `mid` wherever the subtraction does not wrap:
for every `m`, every row and the global counts, if `validate` holds at `mid` it holds at
every smaller `mid2`, provided `m - mid` and `m - mid2` fit a 32-bit `int` (as they do
for all candidates `0 <= mid2 < mid <= m - 1` of the search). -/
theorem validate_monotone_on_rows (k : Nat) (cs : List Char) (g_count : List Int)
    (c_counts : List (List Int)) (street : List Int) (m mid mid2 : Int)
    (hrows : readRows k cs zeros26 = some (g_count, c_counts)) (hs : street ∈ c_counts)
    (hg : ∀ j : Nat, j < 26 → g_count.getD j 0 ≤ INT_MAX)
    (hlt : mid2 < mid) (h1 : INT_MIN ≤ m - mid) (h2 : m - mid2 ≤ INT_MAX)
    (hv : validate mid m street g_count = true) :
    validate mid2 m street g_count = true := by
  obtain ⟨_, _, _, hb⟩ := readRows_spec k cs zeros26 g_count c_counts
    zeros26_length (fun j => by rw [zeros26_getD]) hrows
  exact validate_mono m mid mid2 street g_count
    (fun i hi => ⟨((hb street hs).2 i).1, ((hb street hs).2 i).2, hg i hi⟩)
    (le_of_lt hlt) h1 h2 hv

theorem validate_monotone_on_rows_witness :
    validate 1 5 [2, 1, 0, 0, 0, 0, 0, 0, 0, 0, 0, 0, 0, 0, 0, 0, 0, 0, 0, 0, 0, 0, 0, 0, 0, 0]
      [3, 2, 0, 0, 0, 0, 0, 0, 0, 0, 0, 0, 0, 0, 0, 0, 0, 0, 0, 0, 0, 0, 0, 0, 0, 0] = true :=
  validate_monotone_on_rows 2 "AAB AB".toList
    [3, 2, 0, 0, 0, 0, 0, 0, 0, 0, 0, 0, 0, 0, 0, 0, 0, 0, 0, 0, 0, 0, 0, 0, 0, 0]
    [[2, 1, 0, 0, 0, 0, 0, 0, 0, 0, 0, 0, 0, 0, 0, 0, 0, 0, 0, 0, 0, 0, 0, 0, 0, 0],
      [1, 1, 0, 0, 0, 0, 0, 0, 0, 0, 0, 0, 0, 0, 0, 0, 0, 0, 0, 0, 0, 0, 0, 0, 0, 0]]
    [2, 1, 0, 0, 0, 0, 0, 0, 0, 0, 0, 0, 0, 0, 0, 0, 0, 0, 0, 0, 0, 0, 0, 0, 0, 0]
    5 3 1 (by decide) (by simp) (by decide) (by decide) (by decide) (by decide) (by decide)

/-- C7 (as stated, refuted). After the valid header `1 2` no row string follows, and the
program does not stop silently: the missing row counts as an empty row and the line `1`
is written. -/
theorem missing_row_still_prints :
    readInt "1 2".toList = some (1, " 2".toList) ∧
      readInt " 2".toList = some (2, []) ∧
      rowWords 1 [] = [[]] ∧
      main "1 2".toList = Outcome.exited 0 "1\n" := by
  decide

/-- C7 (amended). The program returns with status 0 and without any output exactly when
the header cannot be read, that is when the extraction of `n` or the extraction of `m`
fails. After a header that was read, no run ends with status 0 and empty output, whether
or not `n` row strings follow. -/
theorem silent_exit_iff_header_unread (inp : List Char) :
    main inp = Outcome.exited 0 "" ↔
      (readInt inp = none ∨
        ∃ (n : Int) (r1 : List Char), readInt inp = some (n, r1) ∧ readInt r1 = none) := by
  constructor
  · intro h
    cases h1 : readInt inp with
    | none => exact Or.inl rfl
    | some p =>
      obtain ⟨n, r1⟩ := p
      refine Or.inr ⟨n, r1, rfl, ?_⟩
      cases h2 : readInt r1 with
      | none => rfl
      | some q =>
        exfalso
        obtain ⟨m, r2⟩ := q
        simp only [main, h1, h2] at h
        by_cases hn : n < 0
        · simp only [hn, if_true] at h
          exact Outcome.noConfusion h
        · simp only [hn, if_false] at h
          cases h3 : readRows n.toNat r2 zeros26 with
          | none =>
            simp only [h3] at h
            exact Outcome.noConfusion h
          | some gc =>
            obtain ⟨g_count, c_counts⟩ := gc
            simp only [h3] at h
            cases h4 : printLoop n m g_count 0 c_counts with
            | none =>
              simp only [h4] at h
              exact Outcome.noConfusion h
            | some t =>
              simp only [h4, Outcome.exited.injEq, true_and] at h
              exact append_newline_ne_empty t h
  · rintro (h | ⟨n, r1, h1, h2⟩)
    · simp only [main, h]
    · simp only [main, h1, h2]

theorem silent_exit_iff_header_unread_witness :
    main [] = Outcome.exited 0 "" ∧ main "3".toList = Outcome.exited 0 "" ∧
      ¬ (readInt "1 2".toList = none ∨
        ∃ (n : Int) (r1 : List Char),
          readInt "1 2".toList = some (n, r1) ∧ readInt r1 = none) :=
  ⟨(silent_exit_iff_header_unread []).mpr (Or.inl (by decide)),
    (silent_exit_iff_header_unread "3".toList).mpr
      (Or.inr ⟨3, [], by decide, by decide⟩),
    fun h => absurd ((silent_exit_iff_header_unread "1 2".toList).mpr h) (by decide)⟩

/-- C8. For every column count `m` (an `int` that is not negative) and every global
count array, a row whose 26 counts are all zero gets the answer `m - 1` from the binary
search. -/
theorem zero_row_answer (m : Int) (street g_count : List Int)
    (hm0 : 0 ≤ m) (hm1 : m ≤ INT_MAX)
    (hz : ∀ i : Nat, i < 26 → street.getD i 0 = 0) :
    search m street g_count = some (m - 1) := by
  obtain ⟨a, ha, h1, h2⟩ := search_spec m street g_count (by unfold INT_MIN; omega) hm1
    (fun x _ _ _ _ _ => validate_of_zero_row x m street g_count hz)
  rw [ha]
  by_cases hm : m = 0
  · have hno : NoFeasible m street g_count := by
      intro mid h3 h4
      omega
    rw [h1.mpr hno, hm]
    rfl
  · have hne : a ≠ -1 := by
      intro hneg
      have := h1.mp hneg 0 (le_refl 0) (by omega)
      rw [validate_of_zero_row 0 m street g_count hz] at this
      exact absurd this (by decide)
    obtain ⟨_, h4, _, h6⟩ := h2 hne
    have h7 := h6 (m - 1) (by omega) (le_refl _)
      (validate_of_zero_row (m - 1) m street g_count hz)
    rw [le_antisymm h4 h7]

theorem zero_row_answer_witness :
    search 7 zeros26
        [3, 2, 0, 0, 0, 0, 0, 0, 0, 0, 0, 0, 0, 0, 0, 0, 0, 0, 0, 0, 0, 0, 0, 0, 0, 0]
        = some (7 - 1) ∧
      search 0 zeros26 zeros26 = some (0 - 1) ∧
      search 2147483647 zeros26 zeros26 = some (2147483647 - 1) :=
  ⟨zero_row_answer 7 zeros26 _ (by decide) (by decide) (by decide),
    zero_row_answer 0 zeros26 zeros26 (by decide) (by decide) (by decide),
    zero_row_answer 2147483647 zeros26 zeros26 (by decide) (by decide) (by decide)⟩

/-- C12. For a valid input with `n >= 1` rows (header read, `m` an `int` whose `m - 1`
does not wrap, rows of uppercase letters) the output is one line followed by a newline:
the line is made of exactly `n` numerals, the `i`-th being the answer of the `i`-th input
row, joined by single spaces; it holds `n - 1` spaces and no newline, and it does not end
with a space. -/
theorem output_is_one_line (inp r1 r2 : List Char) (n m : Int)
    (h1 : readInt inp = some (n, r1)) (h2 : readInt r1 = some (m, r2)) (hn : 1 ≤ n)
    (hm : INT_MIN < m)
    (hup : ∀ w ∈ rowWords n.toNat r2, ∀ c ∈ w, isUpperLetter c) :
    ∃ (g_count : List Int) (c_counts : List (List Int)) (answers : List Int),
      readRows n.toNat r2 zeros26 = some (g_count, c_counts) ∧
      (answers.length : Int) = n ∧
      List.Forall₂ (fun street a => search m street g_count = some a) c_counts answers ∧
      main inp = Outcome.exited 0 (joinSp (answers.map toString) ++ "\n") ∧
      joinSp (answers.map toString) = " ".intercalate (answers.map toString) ∧
      (∀ a ∈ answers, (toString a).data ≠ [] ∧
        ∀ c ∈ (toString a).data, c = '-' ∨ c.isDigit = true) ∧
      ((joinSp (answers.map toString)).data.count ' ' : Int) = n - 1 ∧
      (joinSp (answers.map toString)).data.count '\n' = 0 ∧
      (joinSp (answers.map toString)).data.getLast? ≠ some ' ' := by
  have hm2 : m ≤ INT_MAX := (readInt_range r1 r2 m h2).2
  obtain ⟨⟨g_count, c_counts⟩, hrows⟩ := readRows_isSome n.toNat r2 zeros26 zeros26_length hup
  obtain ⟨_, _, hlen, _⟩ := readRows_spec n.toNat r2 zeros26 g_count c_counts
    zeros26_length (fun j => by rw [zeros26_getD]) hrows
  obtain ⟨answers, hall, hp⟩ := printLoop_eq n m g_count (fun _ => True)
    c_counts 0 (by rw [hlen]; simp [Int.toNat_of_nonneg (le_trans (by decide) hn)])
    (fun street _ => ⟨trivial, by
      obtain ⟨a, ha, _⟩ := search_sound m street g_count hm hm2
      exact ⟨a, ha⟩⟩)
  have hnn : ¬ n < 0 := by omega
  have hal : answers.length = n.toNat := by
    rw [← forall2_length _ _ _ hall, hlen]
  obtain ⟨s1, s2, _, s4⟩ := joinSp_shape (answers.map toString) (by
    intro p hp2
    obtain ⟨a, _, rfl⟩ := List.mem_map.mp hp2
    exact int_toString_plain a)
  refine ⟨g_count, c_counts, answers, hrows, by rw [hal]; omega,
    List.Forall₂.imp (fun _ _ h => h.2) hall, ?_, joinSp_eq_intercalate _,
    fun a _ => int_toString_numeral a, ?_, s2, s4⟩
  · simp only [main, h1, h2, hnn, if_false, hrows, hp]
  · rw [s1, List.length_map, hal]
    omega

theorem output_is_one_line_witness :
    ∃ (g_count : List Int) (c_counts : List (List Int)) (answers : List Int),
      readRows (3 : Int).toNat "\nAAB\nAB\nBCC\n".toList zeros26 = some (g_count, c_counts) ∧
      (answers.length : Int) = 3 ∧
      List.Forall₂ (fun street a => search 5 street g_count = some a) c_counts answers ∧
      main "3 5\nAAB\nAB\nBCC\n".toList
        = Outcome.exited 0 (joinSp (answers.map toString) ++ "\n") ∧
      joinSp (answers.map toString) = " ".intercalate (answers.map toString) ∧
      (∀ a ∈ answers, (toString a).data ≠ [] ∧
        ∀ c ∈ (toString a).data, c = '-' ∨ c.isDigit = true) ∧
      ((joinSp (answers.map toString)).data.count ' ' : Int) = 3 - 1 ∧
      (joinSp (answers.map toString)).data.count '\n' = 0 ∧
      (joinSp (answers.map toString)).data.getLast? ≠ some ' ' :=
  output_is_one_line "3 5\nAAB\nAB\nBCC\n".toList " 5\nAAB\nAB\nBCC\n".toList
    "\nAAB\nAB\nBCC\n".toList 3 5 (by decide) (by decide) (by decide) (by decide)
    (by
      intro w hw c hc
      have hw2 : w = "AAB".toList ∨ w = "AB".toList ∨ w = "BCC".toList := by
        have hrw : rowWords (3 : Int).toNat "\nAAB\nAB\nBCC\n".toList
            = ["AAB".toList, "AB".toList, "BCC".toList] := by decide
        rw [hrw] at hw
        simpa using hw
      have hc2 : c = 'A' ∨ c = 'B' ∨ c = 'C' := by
        rcases hw2 with rfl | rfl | rfl <;> simp at hc <;> tauto
      rcases hc2 with rfl | rfl | rfl <;> exact ⟨by decide, by decide⟩)

end A2181

end Telegraph

/-! ## Soundness, termination and the direct formula -/

namespace Telegraph

namespace A2181

/-- C17 (as stated, refuted). For `m = -2147483648` (so `m <= 0`) and a row with three
items of a category of which four exist, `high = m - 1` wraps to `2147483647`, the loop
runs and leaves `ans_k = 2147483645`: not `-1` and not in `[0, m - 1]`. -/
theorem search_unsound_at_int_min :
    search (-2147483648) (3 :: List.replicate 25 0) (4 :: List.replicate 25 0)
        = some 2147483645 ∧
      (2147483645 : Int) ≠ -1 ∧ ¬ ((2147483645 : Int) ≤ -2147483648 - 1) ∧
      (-2147483648 : Int) ≤ 0 := by
  decide

/-- C17 (amended). For every `int` value `m` other than `-2^31` and arbitrary row and
global arrays, the search loop returns, and the value `ans_k` it leaves is `-1` or an
integer of `[0, m - 1]` at which `validate` returned true; so the printed answer lies in
`[-1, m - 1]` when `m >= 0` and is `-1` when `m <= 0`. -/
theorem search_result_sound (m : Int) (street g_count : List Int)
    (hm1 : INT_MIN < m) (hm2 : m ≤ INT_MAX) :
    ∃ a : Int, search m street g_count = some a ∧
      (a = -1 ∨ (0 ≤ a ∧ a ≤ m - 1 ∧ validate a m street g_count = true)) ∧
      (0 ≤ m → -1 ≤ a ∧ a ≤ m - 1) ∧ (m ≤ 0 → a = -1) := by
  obtain ⟨a, ha, hs⟩ := search_sound m street g_count hm1 hm2
  refine ⟨a, ha, hs, ?_, ?_⟩
  · intro hm
    rcases hs with rfl | ⟨h1, h2, _⟩
    · exact ⟨le_refl _, by omega⟩
    · exact ⟨by omega, h2⟩
  · intro hm
    rcases hs with rfl | ⟨h1, h2, _⟩
    · rfl
    · omega

theorem search_result_sound_witness :
    ∃ a : Int, search 5 (2 :: 1 :: List.replicate 24 0) (3 :: 3 :: List.replicate 24 0)
        = some a ∧
      (a = -1 ∨ (0 ≤ a ∧ a ≤ 5 - 1 ∧
        validate a 5 (2 :: 1 :: List.replicate 24 0) (3 :: 3 :: List.replicate 24 0) = true)) ∧
      ((0 : Int) ≤ 5 → -1 ≤ a ∧ a ≤ 5 - 1) ∧ ((5 : Int) ≤ 0 → a = -1) :=
  search_result_sound 5 (2 :: 1 :: List.replicate 24 0) (3 :: 3 :: List.replicate 24 0)
    (by decide) (by decide)

theorem searchLoopWith_isSome (p : Int → Bool) (fuel : Nat) :
    ∀ low high ans_k : Int, 0 ≤ low → high < 2147483647 → high - low + 1 < 2 ^ fuel →
      ∃ a : Int, searchLoopWith p fuel low high ans_k = some a := by
  induction fuel with
  | zero =>
    intro low high ans_k _ _ hf
    have hn : ¬ low ≤ high := by
      simp only [pow_zero] at hf
      omega
    exact ⟨ans_k, searchLoopWith_gt p 0 low high ans_k hn⟩
  | succ fuel ih =>
    intro low high ans_k h0 hh hf
    by_cases hle : low ≤ high
    · have hpow : (2 : Int) ^ (fuel + 1) = 2 * 2 ^ fuel := by
        rw [pow_succ]
        ring
      rw [hpow] at hf
      rw [searchLoopWith_succ p fuel low high ans_k h0 hle (by omega)]
      by_cases hv : p (low + (high - low) / 2) = true
      · rw [if_pos hv, wrap32_eq (low + (high - low) / 2 + 1) (by omega) (by omega)]
        exact ih _ _ _ (by omega) hh (by omega)
      · rw [if_neg hv]
        exact ih _ _ _ h0 (by omega) (by omega)
    · exact ⟨ans_k, searchLoopWith_gt p _ low high ans_k hle⟩

/-- C18 (as stated, refuted). For `m = -2147483648` and a feasibility test that always
answers true, the loop started from `low = 0`, `high = m - 1` (which wraps to
`2147483647`) never returns: no number of iterations is enough. On the input
`1 -2147483648`, whose single row is empty, the program does not finish. -/
theorem binary_search_diverges_at_int_min :
    (¬ ∃ (fuel : Nat) (a : Int),
        searchLoopWith (fun _ => true) fuel 0 (wrap32 (-2147483648 - 1)) (-1) = some a) ∧
      main "1 -2147483648".toList = Outcome.unfinished := by
  refine ⟨?_, by decide⟩
  rintro ⟨fuel, a, h⟩
  have h64 := searchLoopWith_budget (fun _ => true) (-2147483648 - 1) fuel a h
  have hnone : searchLoopWith (fun _ => true) 64 0 (wrap32 (-2147483648 - 1)) (-1) = none := by
    decide
  rw [hnone] at h64
  exact absurd h64 (by simp)

/-- C18 (amended). For every `int` value `m` other than `-2^31` the loop
`while (low <= high)` terminates whatever the feasibility test answers: started from
`low = 0`, `high = m - 1` it returns within 31 iterations (and, from any
`0 <= low`, `high < INT_MAX`, as soon as the budget's power of two exceeds
`high - low + 1`), because an iteration with `low <= high < INT_MAX` picks `mid` with
`low <= mid <= high` and both possible next intervals have a strictly smaller
`high - low`. -/
theorem binary_search_terminates (feasible : Int → Bool) (m : Int)
    (hm1 : INT_MIN < m) (hm2 : m ≤ INT_MAX) :
    (∃ a : Int, searchLoopWith feasible 31 0 (wrap32 (m - 1)) (-1) = some a) ∧
      (∀ (fuel : Nat) (low high ans_k : Int), 0 ≤ low → high < INT_MAX →
        high - low + 1 < 2 ^ fuel →
        ∃ a : Int, searchLoopWith feasible fuel low high ans_k = some a) ∧
      (∀ street g_count : List Int, ∃ a : Int, search m street g_count = some a) ∧
      (∀ low high : Int, 0 ≤ low → low ≤ high → high < INT_MAX →
        low ≤ wrap32 (low + Int.tdiv (wrap32 (high - low)) 2) ∧
        wrap32 (low + Int.tdiv (wrap32 (high - low)) 2) ≤ high ∧
        high - wrap32 (wrap32 (low + Int.tdiv (wrap32 (high - low)) 2) + 1) < high - low ∧
        wrap32 (wrap32 (low + Int.tdiv (wrap32 (high - low)) 2) - 1) - low < high - low) := by
  have term : ∀ (fuel : Nat) (low high ans_k : Int), 0 ≤ low → high < INT_MAX →
      high - low + 1 < 2 ^ fuel →
      ∃ a : Int, searchLoopWith feasible fuel low high ans_k = some a := by
    intro fuel low high ans_k h0 hh hw
    unfold INT_MAX at hh
    exact searchLoopWith_isSome feasible fuel low high ans_k h0 hh hw
  refine ⟨?_, term, ?_, ?_⟩
  · unfold INT_MIN at hm1
    unfold INT_MAX at hm2
    rw [wrap32_eq (m - 1) (by omega) (by omega)]
    exact term 31 0 (m - 1) (-1) (le_refl 0) (by unfold INT_MAX; omega) (by norm_num; omega)
  · intro street g_count
    obtain ⟨a, ha, _⟩ := search_sound m street g_count hm1 hm2
    exact ⟨a, ha⟩
  · intro low high h0 hlh hh
    unfold INT_MAX at hh
    rw [mid_eq low high h0 hlh (by omega),
      wrap32_eq (low + (high - low) / 2 + 1) (by omega) (by omega),
      wrap32_eq (low + (high - low) / 2 - 1) (by omega) (by omega)]
    omega

theorem binary_search_terminates_witness :
    (∃ a : Int, searchLoopWith (fun mid => decide (mid % 3 = 0)) 31 0 (wrap32 (10 - 1)) (-1)
        = some a) ∧
      (0 : Int) ≤ wrap32 (0 + Int.tdiv (wrap32 (9 - 0)) 2) ∧
      wrap32 (0 + Int.tdiv (wrap32 (9 - 0)) 2) ≤ (9 : Int) ∧
      (9 : Int) - wrap32 (wrap32 (0 + Int.tdiv (wrap32 (9 - 0)) 2) + 1) < 9 - 0 ∧
      wrap32 (wrap32 (0 + Int.tdiv (wrap32 (9 - 0)) 2) - 1) - 0 < (9 : Int) - 0 :=
  ⟨(binary_search_terminates (fun mid => decide (mid % 3 = 0)) 10 (by decide) (by decide)).1,
    (binary_search_terminates (fun mid => decide (mid % 3 = 0)) 10 (by decide)
      (by decide)).2.2.2 0 9 (by decide) (by decide) (by decide)⟩

/-- C16 (as stated, refuted). For `m = -2147483648` the direct formula gives `-1`
(`m - C < 0`), but `high = m - 1` wraps to `2147483647` and the loop runs: with one item
of a category of which two exist the search never returns, and with two items of a
category of which three exist it returns `2147483646`. -/
theorem search_differs_from_closedForm_at_int_min :
    closedForm (-2147483648) (1 :: List.replicate 25 0) (2 :: List.replicate 25 0) = -1 ∧
      search (-2147483648) (1 :: List.replicate 25 0) (2 :: List.replicate 25 0) = none ∧
      (¬ ∃ (fuel : Nat) (a : Int),
        searchLoop (-2147483648) (1 :: List.replicate 25 0) (2 :: List.replicate 25 0)
          fuel 0 (wrap32 (-2147483648 - 1)) (-1) = some a) ∧
      closedForm (-2147483648) (2 :: List.replicate 25 0) (3 :: List.replicate 25 0) = -1 ∧
      search (-2147483648) (2 :: List.replicate 25 0) (3 :: List.replicate 25 0)
        = some 2147483646 := by
  refine ⟨by decide, by decide, ?_, by decide, by decide⟩
  rintro ⟨fuel, a, h⟩
  have hnone : search (-2147483648) (1 :: List.replicate 25 0) (2 :: List.replicate 25 0)
      = none := by decide
  rw [(search_eq_none_iff _ _ _).mp hnone fuel] at h
  exact absurd h (by simp)

/-- C16 (amended). For every `int` value `m` other than `-2^31` and 32-bit counts with
`0 <= row[i] <= global[i]`, the binary search returns the value of the direct formula:
with `C` the maximum over the present categories of
`ceil(row[i] / (global[i] - row[i]))`, it is `-1` if some present category has
`global[i] = row[i]` or if `m - C < 0`, it is `m - 1` when `m >= 0` and no category is
present, and `m - C` in every other case. -/
theorem search_eq_closedForm (m : Int) (street g_count : List Int)
    (hm1 : INT_MIN < m) (hm2 : m ≤ INT_MAX)
    (hb : ∀ i : Nat, i < 26 → 0 ≤ street.getD i 0 ∧ street.getD i 0 ≤ g_count.getD i 0 ∧
      g_count.getD i 0 ≤ INT_MAX) :
    search m street g_count = some (closedForm m street g_count) := by
  unfold closedForm
  by_cases hex : hasExhausted street g_count = true
  · rw [if_pos (Or.inl hex)]
    unfold hasExhausted at hex
    obtain ⟨i, hi, hP⟩ := List.any_eq_true.mp hex
    rw [List.mem_range] at hi
    have hP2 := of_decide_eq_true hP
    exact search_of_exhausted m street g_count i hi (ne_of_gt hP2.1) hP2.2
  · have hc : ∀ i : Nat, i < 26 →
        INT_MIN ≤ street.getD i 0 ∧ street.getD i 0 ≤ INT_MAX ∧
        INT_MIN ≤ g_count.getD i 0 ∧ g_count.getD i 0 ≤ INT_MAX := by
      intro i hi
      obtain ⟨b1, b2, b3⟩ := hb i hi
      unfold INT_MIN
      unfold INT_MAX at b3 ⊢
      omega
    have hrest : ∀ j : Nat, j < 26 → 0 < street.getD j 0 →
        0 < g_count.getD j 0 - street.getD j 0 := by
      intro j hj hp
      have hne : g_count.getD j 0 ≠ street.getD j 0 := by
        intro heq
        apply hex
        unfold hasExhausted
        exact List.any_eq_true.mpr ⟨j, List.mem_range.mpr hj, decide_eq_true ⟨hp, heq⟩⟩
      have := (hb j hj).2.1
      omega
    have hval : ∀ mid : Int, 0 ≤ mid → mid ≤ m - 1 →
        (validate mid m street g_count = true ↔
          ∀ j : Nat, j < 26 → 0 < street.getD j 0 →
            ceilDiv (street.getD j 0) (g_count.getD j 0 - street.getD j 0) ≤ m - mid) := by
      intro mid hmid0 hmid1
      have hd : INT_MIN ≤ m - mid ∧ m - mid ≤ INT_MAX := by
        unfold INT_MIN
        unfold INT_MAX at hm2 ⊢
        omega
      rw [validate_iff mid m street g_count hd hc]
      constructor
      · intro hv j hj hp
        rw [ceilDiv_le_iff _ _ _ (hrest j hj hp)]
        exact (hv j hj (ne_of_gt hp)).2
      · intro hv j hj hne
        have hp : 0 < street.getD j 0 := lt_of_le_of_ne (hb j hj).1 (Ne.symm hne)
        refine ⟨ne_of_gt (hrest j hj hp), ?_⟩
        rw [← ceilDiv_le_iff _ _ _ (hrest j hj hp)]
        exact hv j hj hp
    by_cases hno : noCategory street = true
    · have hno2 : ∀ j : Nat, j < 26 → ¬ 0 < street.getD j 0 := by
        intro j hj
        unfold noCategory at hno
        exact of_decide_eq_true (List.all_eq_true.mp hno j (List.mem_range.mpr hj))
      have hC : maxCeil street g_count 26 = 0 :=
        le_antisymm
          ((maxCeil_le_iff street g_count 0 26).mpr
            ⟨le_refl 0, fun j hj hp => absurd hp (hno2 j hj)⟩)
          (maxCeil_nonneg street g_count 26)
      rw [search_of_threshold m (m - 1) street g_count hm1 hm2 (le_refl _)
        (fun mid h0 h1 => by
          rw [hval mid h0 h1]
          exact ⟨fun _ => h1, fun _ j hj hp => absurd hp (hno2 j hj)⟩)]
      rw [hC]
      by_cases hm : m < 0
      · have e1 : m - 1 < 0 := by omega
        have e2 : hasExhausted street g_count = true ∨ m - 0 < 0 := Or.inr (by omega)
        rw [if_pos e1, if_pos e2]
      · have hne : ¬ (hasExhausted street g_count = true ∨ m - 0 < 0) := by
          rintro (h | h)
          · exact hex h
          · omega
        rw [if_neg hne, if_pos hno]
        by_cases hm1 : m - 1 < 0
        · rw [if_pos hm1]
          congr 1
          omega
        · rw [if_neg hm1]
    · obtain ⟨j0, hj0, hp0⟩ : ∃ j : Nat, j < 26 ∧ 0 < street.getD j 0 := by
        by_contra hcon
        apply hno
        unfold noCategory
        refine List.all_eq_true.mpr (fun j hj => decide_eq_true ?_)
        intro hp
        exact hcon ⟨j, List.mem_range.mp hj, hp⟩
      have hceil1 : 1 ≤ ceilDiv (street.getD j0 0)
          (g_count.getD j0 0 - street.getD j0 0) := by
        by_contra hlt
        have h0 : ceilDiv (street.getD j0 0)
            (g_count.getD j0 0 - street.getD j0 0) ≤ 0 := by omega
        rw [ceilDiv_le_iff _ _ _ (hrest j0 hj0 hp0)] at h0
        omega
      have hC1 : 1 ≤ maxCeil street g_count 26 :=
        le_trans hceil1
          (((maxCeil_le_iff street g_count _ 26).mp (le_refl _)).2 j0 hj0 hp0)
      rw [search_of_threshold m (m - maxCeil street g_count 26) street g_count hm1 hm2
        (by omega)
        (fun mid h0 h1 => by
          rw [hval mid h0 h1]
          constructor
          · intro hv
            have hle : maxCeil street g_count 26 ≤ m - mid :=
              (maxCeil_le_iff street g_count _ 26).mpr
                ⟨le_trans (by omega) (hv j0 hj0 hp0), hv⟩
            omega
          · intro hle
            exact ((maxCeil_le_iff street g_count (m - mid) 26).mp (by omega)).2)]
      by_cases hm : m - maxCeil street g_count 26 < 0
      · have e2 : hasExhausted street g_count = true ∨ m - maxCeil street g_count 26 < 0 :=
          Or.inr hm
        rw [if_pos e2, if_pos hm]
      · have hne : ¬ (hasExhausted street g_count = true ∨
            m - maxCeil street g_count 26 < 0) := by
          rintro (h | h)
          · exact hex h
          · exact hm h
        rw [if_neg hne, if_neg hno, if_neg hm]

theorem search_eq_closedForm_witness :
    search 5 (2 :: 1 :: List.replicate 24 0) (3 :: 3 :: List.replicate 24 0)
        = some (closedForm 5 (2 :: 1 :: List.replicate 24 0) (3 :: 3 :: List.replicate 24 0)) ∧
      closedForm 5 (2 :: 1 :: List.replicate 24 0) (3 :: 3 :: List.replicate 24 0) = 3 ∧
      closedForm 5 (0 :: 0 :: 2 :: List.replicate 23 0) (3 :: 3 :: 2 :: List.replicate 23 0)
        = -1 ∧
      closedForm 5 zeros26 (3 :: 3 :: List.replicate 24 0) = 4 ∧
      closedForm 1 (5 :: List.replicate 25 0) (6 :: List.replicate 25 0) = -1 :=
  ⟨search_eq_closedForm 5 (2 :: 1 :: List.replicate 24 0) (3 :: 3 :: List.replicate 24 0)
      (by decide) (by decide) (by decide),
    by decide, by decide, by decide, by decide⟩

end A2181

end Telegraph
